import Mathlib

/-!
# DynamicArray: a width-tagged growable array (src/src/vector.c)

A shallow embedding of the vector of `src/src/vector.c` and proofs about it.

Modelling decisions, all of them about the environment of the code rather than
about the code:

* The buffer `elements` is a map from slot index to element.  One slot holds the
  `sizeOfElement` bytes of one element, written as the unsigned little-endian
  number those bytes spell.  The number of slots the allocation has is what the
  field `capacity` records; the map itself is total, so a write past the last
  allocated slot (undefined behaviour in C) lands in the map like any other.
* `malloc` and `realloc` always hand out memory, also when asked for zero bytes
  (what they return for size zero is left to the implementation by the C
  standard), so the "Memory allocation failed" exits are not part of the
  operations below.  The places where the answer of the allocator is a
  parameter are `initWith` and `resizeWith`, the forms of `init` and `resize`
  used to say when these two exit on a request that is not granted.
  `realloc` keeps the contents of every slot; fresh memory reads as zero bytes,
  and the facts about `reverse` and `sort`, which allocate a scratch vector, are
  proved for any contents of the fresh buffer.
* `size_t` (64 bits) values are natural numbers without wrap-around, except the
  byte count `capacity * sizeOfElement` that `initWith` hands to `malloc` and
  `resizeWith` to `realloc`.
  In `push`, `capacity * 2` only wraps when `length = capacity` is at least
  `2 ^ 63`, and `length + 1` when `length = 2 ^ 64 - 1`; that many live elements
  do not fit in memory.
* `exit(EXIT_FAILURE)` ends the process.  An operation that writes to the vector
  returns an `Outcome`: either it returned, or it exited, and in both cases the
  outcome carries the state the vector was in at that moment.
* The three widths label the cases of one `switch`, so the source compiles only
  where they are pairwise distinct.  The source targets the Microsoft C library
  (`qsort_s` with the context as first comparator argument), where
  `sizeof(long) = 4`, `sizeof(double) = 8`, `sizeof(char) = 1` and `char` is
  signed.  A `double` is its IEEE 754 binary64 bit pattern.
* `qsort_s` is the C library's.  It is modelled as a quicksort over the list of
  indices that asks the comparator about every pair it orders.
-/

namespace DynamicArray

/-- One element of the buffer: the number its `sizeOfElement` bytes spell. -/
abbrev Elem := Nat

/-- The memory `elements` points to, by slot. -/
abbrev Buffer := Nat → Elem

/-- The struct `Vector` of vector.c, lines 63 to 69. -/
structure Vector where
  elements : Buffer
  capacity : Nat
  length : Nat
  sizeOfElement : Nat

/-- The messages the source prints before `exit(EXIT_FAILURE)`. -/
inductive Message where
  | invalidDatatype
  | invalidElementSize
  | unsupportedElementSize
  | emptyVector
  | invalidIndex
  | memoryAllocationFailed
  deriving DecidableEq, Repr

/-- Result of an operation that writes to the vector: it returned, or it ended
the process, and `vector` is the state of the vector at that moment. -/
inductive Outcome where
  | returned (vector : Vector)
  | exited (message : Message) (vector : Vector)

/-- Width of `long` on the platform of the source. -/
def sizeof_long : Nat := 4

/-- Width of `double`. -/
def sizeof_double : Nat := 8

/-- Width of `char`. -/
def sizeof_char : Nat := 1

/-- The test of `init`, line 82, negated: the width is one of the three. -/
def supportedWidth (sizeofElement : Nat) : Prop :=
  sizeofElement = sizeof_long ∨ sizeofElement = sizeof_double ∨ sizeofElement = sizeof_char

instance (sizeofElement : Nat) : Decidable (supportedWidth sizeofElement) := by
  unfold supportedWidth; infer_instance

/-- Fresh memory from `malloc`. -/
def malloc (_slots : Nat) : Buffer := fun _ => 0

/-- Memory after `realloc`: every slot keeps its contents. -/
def realloc (elements : Buffer) (_slots : Nat) : Buffer := elements

/-- The `memcpy` of one element into slot `index`. -/
def storeAt (elements : Buffer) (index : Nat) (element : Elem) : Buffer :=
  fun j => if j = index then element else elements j

/-- The function `init`, lines 80 to 98, with a `malloc` that hands out the
buffer; `initWith` has the exit of lines 93 to 97 too. -/
def init (capacity sizeofElement : Nat) : Except Message Vector :=
  if sizeofElement ≠ sizeof_long ∧ sizeofElement ≠ sizeof_double ∧ sizeofElement ≠ sizeof_char then
    .error .invalidDatatype
  else
    .ok { elements := malloc capacity, capacity := capacity, length := 0,
          sizeOfElement := sizeofElement }

/-- The function `init`, lines 80 to 98, with the answer of `malloc` as a
parameter: `grants bytes` tells whether `malloc(bytes)` returns memory or NULL.
The byte count is the `size_t` product `capacity * sizeOfElement`. -/
def initWith (grants : Nat → Bool) (capacity sizeofElement : Nat) : Except Message Vector :=
  if sizeofElement ≠ sizeof_long ∧ sizeofElement ≠ sizeof_double ∧ sizeofElement ≠ sizeof_char then
    .error .invalidDatatype
  else if grants (capacity * sizeofElement % 2 ^ 64) = false then
    .error .memoryAllocationFailed
  else
    .ok { elements := malloc capacity, capacity := capacity, length := 0,
          sizeOfElement := sizeofElement }

/-- The `switch` of `push`, lines 112 to 147: the message of the exit it takes,
if it takes one.  In each case the local `value` has the width of the case. -/
def pushSwitch (vector : Vector) : Option Message :=
  if vector.sizeOfElement = sizeof_long then
    if sizeof_long ≠ vector.sizeOfElement then some .invalidElementSize else none
  else if vector.sizeOfElement = sizeof_double then
    if sizeof_double ≠ vector.sizeOfElement then some .invalidElementSize else none
  else if vector.sizeOfElement = sizeof_char then
    if sizeof_char ≠ vector.sizeOfElement then some .invalidElementSize else none
  else some .unsupportedElementSize

/-- Lines 149 to 159 of `push`: the buffer doubles when it is full.  The
`realloc` returns memory; the exit of lines 154 to 158 on a NULL is not
modelled. -/
def pushGrow (vector : Vector) : Vector :=
  if vector.length = vector.capacity then
    { vector with
      capacity := vector.capacity * 2
      elements := realloc vector.elements (vector.capacity * 2) }
  else vector

/-- The function `push`, lines 110 to 165. -/
def push (vector : Vector) (element : Elem) : Outcome :=
  match pushSwitch vector with
  | some message => .exited message vector
  | none =>
    let grown := pushGrow vector
    .returned { grown with
      elements := storeAt grown.elements grown.length element
      length := grown.length + 1 }

/-- The function `pop`, lines 171 to 180. -/
def pop (vector : Vector) : Outcome :=
  if vector.length = 0 then .exited .emptyVector vector
  else .returned { vector with length := vector.length - 1 }

/-- The `memmove` of `erase`: the `count` slots from `index + 1` on move down by one. -/
def moveDown (elements : Buffer) (index count : Nat) : Buffer :=
  fun j => if index ≤ j ∧ j < index + count then elements (j + 1) else elements j

/-- The function `erase`, lines 188 to 202. -/
def erase (vector : Vector) (index : Nat) : Outcome :=
  if index ≥ vector.length then .exited .invalidIndex vector
  else
    .returned { vector with
      elements := moveDown vector.elements index (vector.length - index - 1)
      length := vector.length - 1 }

/-- The function `get`, lines 213 to 223; the result is the element the returned
pointer points to. -/
def get (vector : Vector) (index : Nat) : Except Message Elem :=
  if index ≥ vector.length then .error .invalidIndex
  else .ok (vector.elements index)

/-- The call `get(vector, index)` in state-passing form: what `get` returns, and
the vector after the call.  The body of `get` has no assignment through
`vector` and no write to the buffer, so the vector after is the vector before. -/
def getCall (vector : Vector) (index : Nat) : Except Message Elem × Vector :=
  (get vector index, vector)

/-- The function `clear`, lines 231 to 234. -/
def clear (vector : Vector) : Outcome :=
  .returned { vector with length := 0 }

/-- The function `resize`, lines 241 to 257, with a `realloc` that returns
memory for the whole new capacity; `resizeWith` has the exit of lines 252 to
256 and the `size_t` byte count. -/
def resize (vector : Vector) (capacity : Nat) : Outcome :=
  let length := if capacity < vector.length then capacity else vector.length
  .returned { vector with
    capacity := capacity
    length := length
    elements := realloc vector.elements capacity }

/-- What a block of `bytes` bytes holds of a buffer after `realloc`: the slots
that lie within the block keep their contents, the others are not there and
read as zero bytes. -/
def keptSlots (elements : Buffer) (sizeOfElement bytes : Nat) : Buffer :=
  fun j => if (j + 1) * sizeOfElement ≤ bytes then elements j else 0

/-- The slots behind a NULL pointer: none. -/
def noBlock : Buffer := fun _ => 0

/-- The function `resize`, lines 241 to 257, with the answer of `realloc` as a
parameter: `grants bytes` tells whether `realloc(elements, bytes)` returns
memory or NULL.  The byte count is the `size_t` product
`capacity * sizeOfElement` of the capacity just assigned.  A NULL is an exit
only when `capacity > 0`; at the exit `capacity` and `length` are already
written and `elements` is NULL. -/
def resizeWith (grants : Nat → Bool) (vector : Vector) (capacity : Nat) : Outcome :=
  let length := if capacity < vector.length then capacity else vector.length
  let bytes := capacity * vector.sizeOfElement % 2 ^ 64
  if grants bytes = false then
    if capacity > 0 then
      .exited .memoryAllocationFailed
        { vector with capacity := capacity, length := length, elements := noBlock }
    else
      .returned { vector with capacity := capacity, length := length, elements := noBlock }
  else
    .returned { vector with
      capacity := capacity
      length := length
      elements := keptSlots vector.elements vector.sizeOfElement bytes }

/-- First loop of `reverse`, lines 269 to 273: `i` runs from `length` down to 1
and the element at `i - 1` is pushed to `temp`. -/
def reverseFill (vector : Vector) : Nat → Vector → Except Message Vector
  | 0, temp => .ok temp
  | i + 1, temp =>
    match get vector i with
    | .error message => .error message
    | .ok value =>
      match push temp value with
      | .exited message _ => .error message
      | .returned temp => reverseFill vector i temp

/-- Second loop of `reverse`, lines 275 to 279, with `remaining` iterations to
go: `i = length - remaining`, and slot `i` of the vector takes element `i` of
`temp`. -/
def reverseCopy (temp : Vector) : Nat → Vector → Outcome
  | 0, vector => .returned vector
  | remaining + 1, vector =>
    let i := vector.length - (remaining + 1)
    match get temp i with
    | .error message => .exited message vector
    | .ok value =>
      reverseCopy temp remaining { vector with elements := storeAt vector.elements i value }

/-- The function `reverse`, lines 264 to 282. -/
def reverse (vector : Vector) : Outcome :=
  match init vector.length vector.sizeOfElement with
  | .error message => .exited message vector
  | .ok temp =>
    match reverseFill vector vector.length temp with
    | .error message => .exited message vector
    | .ok temp => reverseCopy temp vector.length vector

/-- Value of a `long` (32 bits, two's complement) stored in an element. -/
def asLong (element : Elem) : Int :=
  if element % 2 ^ 32 < 2 ^ 31 then (element % 2 ^ 32 : Nat) else (element % 2 ^ 32 : Nat) - 2 ^ 32

/-- Value of a `char` (8 bits, signed) stored in an element. -/
def asChar (element : Elem) : Int :=
  if element % 2 ^ 8 < 2 ^ 7 then (element % 2 ^ 8 : Nat) else (element % 2 ^ 8 : Nat) - 2 ^ 8

/-- Whether the binary64 bit pattern is a NaN: exponent all ones, fraction not zero. -/
def isNaN (element : Elem) : Bool :=
  decide (0x7FF0000000000000 < element % 2 ^ 63)

/-- Position of a binary64 bit pattern that is not a NaN on the number line:
the magnitude bits, negated when the sign bit is set.  Both zeros sit at 0. -/
def doubleKey (element : Elem) : Int :=
  if element % 2 ^ 64 < 2 ^ 63 then (element % 2 ^ 63 : Nat) else -((element % 2 ^ 63 : Nat) : Int)

/-- The comparison `value1 < value2` of two `double`s: false when either is a NaN. -/
def doubleLt (value1 value2 : Elem) : Bool :=
  !isNaN value1 && !isNaN value2 && decide (doubleKey value1 < doubleKey value2)

/-- The function `_compare`, lines 288 to 333. -/
def _compare (vector : Vector) (index1 index2 : Nat) : Except Message Int :=
  match get vector index1 with
  | .error message => .error message
  | .ok element1 =>
    match get vector index2 with
    | .error message => .error message
    | .ok element2 =>
      if vector.sizeOfElement = sizeof_long then
        if asLong element1 < asLong element2 then .ok (-1)
        else if asLong element1 > asLong element2 then .ok 1
        else .ok 0
      else if vector.sizeOfElement = sizeof_double then
        if doubleLt element1 element2 then .ok (-1)
        else if doubleLt element2 element1 then .ok 1
        else .ok 0
      else if vector.sizeOfElement = sizeof_char then
        if asChar element1 < asChar element2 then .ok (-1)
        else if asChar element1 > asChar element2 then .ok 1
        else .ok 0
      else .error .unsupportedElementSize

/-- Partition step of `qsort_s`: every index of the list is compared with the
pivot; those that compare below it go left, the others right. -/
def qsortSplit (compare : Nat → Nat → Except Message Int) (pivot : Nat) :
    List Nat → Except Message (List Nat × List Nat)
  | [] => .ok ([], [])
  | index :: rest =>
    match compare index pivot with
    | .error message => .error message
    | .ok order =>
      match qsortSplit compare pivot rest with
      | .error message => .error message
      | .ok (below, others) =>
        if order < 0 then .ok (index :: below, others) else .ok (below, index :: others)

/-- Recursion of `qsort_s`; `depth` bounds the nesting and the length of the
list is always enough. -/
def qsortRec (compare : Nat → Nat → Except Message Int) :
    Nat → List Nat → Except Message (List Nat)
  | 0, indices => .ok indices
  | _ + 1, [] => .ok []
  | depth + 1, pivot :: rest =>
    match qsortSplit compare pivot rest with
    | .error message => .error message
    | .ok (below, others) =>
      match qsortRec compare depth below with
      | .error message => .error message
      | .ok sortedBelow =>
        match qsortRec compare depth others with
        | .error message => .error message
        | .ok sortedOthers => .ok (sortedBelow ++ pivot :: sortedOthers)

/-- The C library's `qsort_s` on the array of indices, with the comparator
that `sort` passes.  A comparator that exits ends the sort. -/
def qsort_s (indices : List Nat) (compare : Nat → Nat → Except Message Int) :
    Except Message (List Nat) :=
  qsortRec compare indices.length indices

/-- Loop of `sort`, lines 358 to 362: the elements at the sorted indices are
pushed to `sorted` one after the other. -/
def sortFill (vector : Vector) : List Nat → Vector → Except Message Vector
  | [], sorted => .ok sorted
  | index :: rest, sorted =>
    match get vector index with
    | .error message => .error message
    | .ok element =>
      match push sorted element with
      | .exited message _ => .error message
      | .returned sorted => sortFill vector rest sorted

/-- The `memcpy` of `sort`, line 364: the first `count` slots are taken from `source`. -/
def copySlots (elements source : Buffer) (count : Nat) : Buffer :=
  fun j => if j < count then source j else elements j

/-- The function `sort`, lines 339 to 369. -/
def sort (vector : Vector) : Outcome :=
  match qsort_s (List.range vector.length) (_compare vector) with
  | .error message => .exited message vector
  | .ok indices =>
    match init vector.capacity vector.sizeOfElement with
    | .error message => .exited message vector
    | .ok sorted =>
      match sortFill vector indices sorted with
      | .error message => .exited message vector
      | .ok sorted =>
        .returned { vector with
          elements := copySlots vector.elements sorted.elements vector.length
          length := sorted.length }

/-- The function `isEmpty`, lines 393 to 396. -/
def isEmpty (vector : Vector) : Bool := decide (vector.length = 0)

/-- The function `vectorElementSize`, lines 398 to 401. -/
def vectorElementSize (vector : Vector) : Nat := vector.sizeOfElement

/-- The function `vectorCapacity`, lines 403 to 406. -/
def vectorCapacity (vector : Vector) : Nat := vector.capacity

/-- The function `length`, lines 408 to 411. -/
def length (vector : Vector) : Nat := vector.length

/-- One call of an operation that writes to the vector, with its arguments. -/
inductive Call where
  | push (element : Elem)
  | pop
  | erase (index : Nat)
  | clear
  | resize (capacity : Nat)
  | reverse
  | sort

/-- The call carried out on a vector. -/
def Call.apply (vector : Vector) : Call → Outcome
  | .push element => DynamicArray.push vector element
  | .pop => DynamicArray.pop vector
  | .erase index => DynamicArray.erase vector index
  | .clear => DynamicArray.clear vector
  | .resize capacity => DynamicArray.resize vector capacity
  | .reverse => DynamicArray.reverse vector
  | .sort => DynamicArray.sort vector

/-- A program that makes the calls one after the other; the first exit ends it. -/
def run (vector : Vector) : List Call → Outcome
  | [] => .returned vector
  | call :: rest =>
    match call.apply vector with
    | .exited message vector => .exited message vector
    | .returned vector => run vector rest

/-- The live elements, index 0 first. -/
def live (vector : Vector) : List Elem :=
  (List.range vector.length).map vector.elements

/-- The comparison `value1 <= value2` in the type the width selects. -/
def valueLe (sizeOfElement : Nat) (value1 value2 : Elem) : Prop :=
  if sizeOfElement = sizeof_long then asLong value1 ≤ asLong value2
  else if sizeOfElement = sizeof_double then
    isNaN value1 = false ∧ isNaN value2 = false ∧ doubleKey value1 ≤ doubleKey value2
  else asChar value1 ≤ asChar value2

instance (sizeOfElement : Nat) (value1 value2 : Elem) :
    Decidable (valueLe sizeOfElement value1 value2) := by
  unfold valueLe; infer_instance

/-- The value an element stands for in the type the width selects, as a point
of the number line (for a `double` that is not a NaN: its place in the order
of the doubles). -/
def valueKey (sizeOfElement : Nat) (element : Elem) : Int :=
  if sizeOfElement = sizeof_long then asLong element
  else if sizeOfElement = sizeof_double then doubleKey element
  else asChar element

/-- No live element of a vector of `double`s is a NaN; nothing is asked of a
vector of another width. -/
def noLiveNaN (vector : Vector) : Prop :=
  vector.sizeOfElement = sizeof_double →
    ∀ i, i < vector.length → isNaN (vector.elements i) = false

/-- The elements of a vector of `long` or `char` are numbers of as many bytes
as the width says; nothing is asked of a vector of another width. -/
def liveFitWidth (vector : Vector) : Prop :=
  (vector.sizeOfElement = sizeof_long → ∀ i, i < vector.length → vector.elements i < 2 ^ 32) ∧
  (vector.sizeOfElement = sizeof_char → ∀ i, i < vector.length → vector.elements i < 2 ^ 8)

/-- Binary exponent of a positive number: the `e` with `2 ^ e <= n < 2 ^ (e + 1)`;
`fuel` bounds the halvings and `n` itself is enough. -/
def exponentOf : Nat → Nat → Nat
  | 0, _ => 0
  | fuel + 1, n => if n < 2 then 0 else exponentOf fuel (n / 2) + 1

/-- The binary64 bit pattern of the `double` with the value `n`, for
`n < 2 ^ 53`: sign 0, biased exponent `1023 + e`, and the bits of `n` below its
leading one at the top of the fraction. -/
def doubleOfNat (n : Nat) : Elem :=
  if n = 0 then 0
  else (1023 + exponentOf n n) * 2 ^ 52 + (n - 2 ^ exponentOf n n) * 2 ^ (52 - exponentOf n n)

/-- The loop of `main` in example.c, lines 24 to 27: the values 1.0, 2.0, ...,
100.0 are pushed in that order. -/
def pushOneToHundred : List Call :=
  (List.range' 1 100).map (fun n => Call.push (doubleOfNat n))

/-- The vector that `init(10, sizeof(double))` returns. -/
def scenarioStart : Vector :=
  { elements := malloc 10, capacity := 10, length := 0, sizeOfElement := sizeof_double }

/-- The calls of `main` in example.c after the loop of pushes, lines 41 to 58. -/
def scenarioCalls : List Call :=
  [Call.erase 1, Call.resize 200, Call.pop, Call.reverse, Call.sort, Call.clear]

/-- The scenario up to and with the first `calls` of `scenarioCalls`: the
hundred pushes on `scenarioStart`, then those calls. -/
def scenarioAfter (calls : Nat) : Outcome :=
  run scenarioStart (pushOneToHundred ++ scenarioCalls.take calls)

/-- Whether the call, or the program, returned. -/
def Outcome.returns : Outcome → Bool
  | .returned _ => true
  | .exited _ _ => false

/-- State of the vector when the call was over, whichever way it ended. -/
def Outcome.vector : Outcome → Vector
  | .returned vector => vector
  | .exited _ vector => vector

/-! ## Basic facts about the operations -/

theorem pushSwitch_of_supported (vector : Vector) (hw : supportedWidth vector.sizeOfElement) :
    pushSwitch vector = none := by
  unfold pushSwitch
  rcases hw with h | h | h <;> simp [h, sizeof_long, sizeof_double, sizeof_char]

theorem pushSwitch_of_unsupported (vector : Vector) (hw : ¬ supportedWidth vector.sizeOfElement) :
    pushSwitch vector = some Message.unsupportedElementSize := by
  unfold pushSwitch
  unfold supportedWidth at hw
  simp only [not_or] at hw
  simp [hw.1, hw.2.1, hw.2.2]

theorem push_of_supported (vector : Vector) (element : Elem)
    (hw : supportedWidth vector.sizeOfElement) :
    push vector element = Outcome.returned
      { elements := storeAt vector.elements vector.length element
        capacity := if vector.length = vector.capacity then vector.capacity * 2 else vector.capacity
        length := vector.length + 1
        sizeOfElement := vector.sizeOfElement } := by
  unfold push
  rw [pushSwitch_of_supported vector hw]
  unfold pushGrow realloc
  by_cases h : vector.length = vector.capacity <;> simp [h]

theorem init_of_supported (capacity sizeofElement : Nat) (hw : supportedWidth sizeofElement) :
    init capacity sizeofElement = Except.ok
      { elements := malloc capacity, capacity := capacity, length := 0,
        sizeOfElement := sizeofElement } := by
  unfold init
  rw [if_neg]
  unfold supportedWidth at hw
  omega

theorem run_append (calls more : List Call) (vector : Vector) :
    run vector (calls ++ more) =
      match run vector calls with
      | Outcome.exited message vector => Outcome.exited message vector
      | Outcome.returned vector => run vector more := by
  induction calls generalizing vector with
  | nil => simp [run]
  | cons call rest ih =>
    simp only [List.cons_append, run]
    cases call.apply vector with
    | exited message vector => simp
    | returned vector => simpa using ih vector

/-- Pushing a list of elements to a vector whose capacity is `C * 2 ^ k`, reached
by doubling only when needed, keeps that shape. -/
theorem run_pushes (C : Nat) (hC : 1 ≤ C) (elements : List Elem) :
    ∀ vector : Vector, supportedWidth vector.sizeOfElement →
      (∃ k, vector.capacity = C * 2 ^ k ∧ vector.length ≤ vector.capacity ∧
        (k = 0 ∨ C * 2 ^ (k - 1) < vector.length)) →
      ∃ result, run vector (elements.map Call.push) = Outcome.returned result ∧
        result.length = vector.length + elements.length ∧
        result.sizeOfElement = vector.sizeOfElement ∧
        ∃ k, result.capacity = C * 2 ^ k ∧ result.length ≤ result.capacity ∧
          (k = 0 ∨ C * 2 ^ (k - 1) < result.length) := by
  induction elements with
  | nil =>
    intro vector _ hk
    exact ⟨vector, by simp [run], by simp, rfl, hk⟩
  | cons element rest ih =>
    intro vector hw hk
    obtain ⟨k, hcap, hle, hk⟩ := hk
    simp only [List.map_cons, run, Call.apply, push_of_supported vector element hw]
    have hpos : 1 ≤ C * 2 ^ k := Nat.one_le_iff_ne_zero.mpr (by positivity)
    have step := ih
      { elements := storeAt vector.elements vector.length element
        capacity := if vector.length = vector.capacity then vector.capacity * 2 else vector.capacity
        length := vector.length + 1
        sizeOfElement := vector.sizeOfElement } hw (by
        by_cases hfull : vector.length = vector.capacity
        · refine ⟨k + 1, ?_, ?_, Or.inr ?_⟩
          · simp only [if_pos hfull]; rw [hcap]; ring
          · simp only [if_pos hfull]; omega
          · simp only [Nat.add_sub_cancel]; omega
        · refine ⟨k, ?_, ?_, ?_⟩
          · simp only [if_neg hfull]; exact hcap
          · simp only [if_neg hfull]; omega
          · rcases hk with h | h
            · exact Or.inl h
            · exact Or.inr (by simp only; omega))
    obtain ⟨result, hrun, hlen, hsz, hres⟩ := step
    refine ⟨result, hrun, ?_, hsz, hres⟩
    simp only [List.length_cons] at hlen ⊢
    omega

theorem live_length (vector : Vector) : (live vector).length = vector.length := by
  simp [live]

theorem live_getElem (vector : Vector) (i : Nat) (h : i < (live vector).length) :
    (live vector)[i] = vector.elements i := by
  simp [live]

theorem get_of_lt (vector : Vector) (index : Nat) (h : index < vector.length) :
    get vector index = Except.ok (vector.elements index) := by
  unfold get
  rw [if_neg (by omega)]

theorem get_of_ge (vector : Vector) (index : Nat) (h : vector.length ≤ index) :
    get vector index = Except.error Message.invalidIndex := by
  unfold get
  rw [if_pos (by omega)]

/-! ## Growth of the buffer -/

/-- C1: the capacity invariant does not survive a push to a vector of capacity 0.
The program `init(1, sizeof(char)); resize(0); push(65)` makes three calls that
all return; after `resize` the vector has `length = 0 <= capacity = 0`, and
after `push` it has `length = 1` above `capacity = 0`. -/
theorem capacity_invariant_lost_at_zero_capacity :
    ∃ created resized result, init 1 sizeof_char = Except.ok created ∧
      run created [Call.resize 0] = Outcome.returned resized ∧
      resized.capacity = 0 ∧ resized.length = 0 ∧
      run created [Call.resize 0, Call.push 65] = Outcome.returned result ∧
      result.capacity = 0 ∧ result.length = 1 ∧ ¬ result.length ≤ result.capacity :=
  ⟨_, _, _, rfl, rfl, rfl, rfl, rfl, rfl, rfl, by decide⟩

/-- C2: pushing the `N` elements of a list to the vector `init(C, width)`
returned, `C >= 1`, gives `length = N` and `capacity = C * 2 ^ k` for the least
`k` with `N <= C * 2 ^ k`. -/
theorem push_n_length_and_capacity (C width : Nat) (created : Vector) (elements : List Elem)
    (hC : 1 ≤ C) (hinit : init C width = Except.ok created) :
    ∃ result k, run created (elements.map Call.push) = Outcome.returned result ∧
      result.length = elements.length ∧
      result.capacity = C * 2 ^ k ∧
      elements.length ≤ C * 2 ^ k ∧
      ∀ j, elements.length ≤ C * 2 ^ j → k ≤ j := by
  have hw : supportedWidth width := by
    by_contra hn
    unfold init at hinit
    unfold supportedWidth at hn
    rw [if_pos (by omega)] at hinit
    cases hinit
  rw [init_of_supported C width hw] at hinit
  cases hinit
  obtain ⟨result, hrun, hlen, -, k, hcap, hle, hk⟩ :=
    run_pushes C hC elements
      { elements := malloc C, capacity := C, length := 0, sizeOfElement := width } hw
      ⟨0, by simp, by simp, Or.inl rfl⟩
  simp only [Nat.zero_add] at hlen
  refine ⟨result, k, hrun, hlen, hcap, by omega, ?_⟩
  intro j hj
  rcases hk with h | h
  · omega
  · have hlt : C * 2 ^ (k - 1) < C * 2 ^ j := by omega
    have hpow : 2 ^ (k - 1) < 2 ^ j := Nat.lt_of_mul_lt_mul_left hlt
    have := (Nat.pow_lt_pow_iff_right (by norm_num : 1 < 2)).mp hpow
    omega

/-- Witness of C2: three pushes to a vector of initial capacity 2. -/
theorem push_n_length_and_capacity_witness :
    ∃ result k, run { elements := malloc 2, capacity := 2, length := 0, sizeOfElement := 8 }
        ([10, 20, 30].map Call.push) = Outcome.returned result ∧
      result.length = [10, 20, 30].length ∧
      result.capacity = 2 * 2 ^ k ∧
      [10, 20, 30].length ≤ 2 * 2 ^ k ∧
      ∀ j, [10, 20, 30].length ≤ 2 * 2 ^ j → k ≤ j :=
  push_n_length_and_capacity 2 8 _ [10, 20, 30] (by decide) rfl

/-- C3: a push to a vector with `capacity = 0` and `length = 0` returns with the
capacity still 0 (twice 0) and `length = 1`: no least positive capacity is
put in place. -/
theorem push_at_zero_capacity_keeps_zero (vector : Vector) (element : Elem)
    (hw : supportedWidth vector.sizeOfElement)
    (hcap : vector.capacity = 0) (hlen : vector.length = 0) :
    ∃ result, push vector element = Outcome.returned result ∧
      result.capacity = 0 ∧ result.length = 1 ∧ ¬ 1 ≤ result.capacity := by
  refine ⟨_, push_of_supported vector element hw, ?_, ?_, ?_⟩
  · simp [hcap, hlen]
  · simp [hlen]
  · simp [hcap, hlen]

/-- Witness of C3: the vector `resize(0)` leaves of a vector of `double`s. -/
theorem push_at_zero_capacity_keeps_zero_witness :
    ∃ result, push { elements := fun j => j + 5, capacity := 0, length := 0, sizeOfElement := 8 } 7
        = Outcome.returned result ∧
      result.capacity = 0 ∧ result.length = 1 ∧ ¬ 1 ≤ result.capacity :=
  push_at_zero_capacity_keeps_zero
    { elements := fun j => j + 5, capacity := 0, length := 0, sizeOfElement := 8 } 7
    (by decide) rfl rfl

/-- C4: on a vector with `length = n <= capacity`, `capacity >= 1` and a
supported width, `push(x)` returns; afterwards `length = n + 1`, `get(n)` is `x`,
`get(i)` is what it was for every `i < n`, and the capacity is the same when
`n < capacity` and twice as large when `n = capacity`. -/
theorem push_appends (vector : Vector) (element : Elem)
    (_hlen : vector.length ≤ vector.capacity) (_hcap : 1 ≤ vector.capacity)
    (hw : supportedWidth vector.sizeOfElement) :
    ∃ result, push vector element = Outcome.returned result ∧
      result.length = vector.length + 1 ∧
      get result vector.length = Except.ok element ∧
      (∀ i, i < vector.length → get result i = get vector i) ∧
      (vector.length < vector.capacity → result.capacity = vector.capacity) ∧
      (vector.length = vector.capacity → result.capacity = 2 * vector.capacity) := by
  refine ⟨_, push_of_supported vector element hw, rfl, ?_, ?_, ?_, ?_⟩
  · rw [get_of_lt _ _ (by simp)]
    simp [storeAt]
  · intro i hi
    rw [get_of_lt _ _ (by simp; omega), get_of_lt _ _ hi]
    simp [storeAt, Nat.ne_of_lt hi]
  · intro h
    simp [Nat.ne_of_lt h]
  · intro h
    simp [h, Nat.mul_comm]

/-- Witness of C4: a full vector of two `long`s. -/
theorem push_appends_witness :
    ∃ result, push { elements := fun j => j + 5, capacity := 2, length := 2, sizeOfElement := 4 } 9
        = Outcome.returned result ∧
      result.length = 2 + 1 ∧
      get result 2 = Except.ok 9 ∧
      (∀ i, i < 2 → get result i
        = get { elements := fun j => j + 5, capacity := 2, length := 2, sizeOfElement := 4 } i) ∧
      ((2 : Nat) < 2 → result.capacity = 2) ∧
      ((2 : Nat) = 2 → result.capacity = 2 * 2) :=
  push_appends { elements := fun j => j + 5, capacity := 2, length := 2, sizeOfElement := 4 } 9
    (by decide) (by decide) (by decide)

/-! ## Removal and resizing -/

theorem erase_of_lt (vector : Vector) (index : Nat) (h : index < vector.length) :
    erase vector index = Outcome.returned
      { vector with
        elements := moveDown vector.elements index (vector.length - index - 1)
        length := vector.length - 1 } := by
  unfold erase
  rw [if_neg (by omega)]

/-- C5: for `i < n`, `erase(i)` returns and the live elements are the ones
before `i` followed by the ones after `i`, with `length = n - 1` and the
capacity as before; for `i >= n` it exits with "Invalid index" and the vector is
as it was. -/
theorem erase_shifts_down (vector : Vector) (index : Nat) :
    (index < vector.length →
      ∃ result, erase vector index = Outcome.returned result ∧
        live result = (live vector).take index ++ (live vector).drop (index + 1) ∧
        result.length = vector.length - 1 ∧
        result.capacity = vector.capacity) ∧
    (vector.length ≤ index →
      erase vector index = Outcome.exited Message.invalidIndex vector) := by
  constructor
  · intro h
    refine ⟨_, erase_of_lt vector index h, ?_, rfl, rfl⟩
    apply List.ext_getElem
    · simp only [live_length, List.length_append, List.length_take, List.length_drop]
      omega
    · intro j h1 h2
      rw [live_getElem]
      simp only [live_length] at h1
      by_cases hj : j < index
      · rw [List.getElem_append_left (by simp [live_length]; omega)]
        simp [live, moveDown]
        omega
      · rw [List.getElem_append_right (by simp [live_length]; omega)]
        simp only [List.getElem_drop, List.length_take, live_length, live_getElem]
        have hmin : min index vector.length = index := by omega
        simp only [moveDown, hmin]
        rw [if_pos (by omega)]
        congr 1
        omega
  · intro h
    unfold erase
    rw [if_pos h]

/-- Witness of C5: index 1 of three elements, and index 3 of three elements. -/
theorem erase_shifts_down_witness :
    (∃ result, erase { elements := fun j => j + 5, capacity := 4, length := 3, sizeOfElement := 4 } 1
        = Outcome.returned result ∧
      live result =
        (live { elements := fun j => j + 5, capacity := 4, length := 3, sizeOfElement := 4 }).take 1
        ++ (live { elements := fun j => j + 5, capacity := 4, length := 3,
                   sizeOfElement := 4 }).drop (1 + 1) ∧
      result.length = 3 - 1 ∧ result.capacity = 4) ∧
    erase { elements := fun j => j + 5, capacity := 4, length := 3, sizeOfElement := 4 } 3
      = Outcome.exited Message.invalidIndex
          { elements := fun j => j + 5, capacity := 4, length := 3, sizeOfElement := 4 } :=
  ⟨(erase_shifts_down
      { elements := fun j => j + 5, capacity := 4, length := 3, sizeOfElement := 4 } 1).1
      (by decide),
   (erase_shifts_down
      { elements := fun j => j + 5, capacity := 4, length := 3, sizeOfElement := 4 } 3).2
      (by decide)⟩

/-- When `realloc` provides the bytes and their count fits a `size_t`,
`resizeWith` returns what `resize` returns: the same fields and the same
contents of every slot of the new capacity. -/
theorem resizeWith_of_granted (grants : Nat → Bool) (vector : Vector) (capacity : Nat)
    (hfits : capacity * vector.sizeOfElement < 2 ^ 64)
    (hg : grants (capacity * vector.sizeOfElement) = true) :
    ∃ result, resizeWith grants vector capacity = Outcome.returned result ∧
      result.capacity = (resize vector capacity).vector.capacity ∧
      result.length = (resize vector capacity).vector.length ∧
      result.sizeOfElement = (resize vector capacity).vector.sizeOfElement ∧
      ∀ j, j < capacity → result.elements j = (resize vector capacity).vector.elements j := by
  have hbytes : capacity * vector.sizeOfElement % 2 ^ 64 = capacity * vector.sizeOfElement :=
    Nat.mod_eq_of_lt hfits
  have hnot : ¬ grants (capacity * vector.sizeOfElement % 2 ^ 64) = false := by
    rw [hbytes, hg]
    decide
  refine ⟨{ vector with
      capacity := capacity
      length := if capacity < vector.length then capacity else vector.length
      elements := keptSlots vector.elements vector.sizeOfElement
        (capacity * vector.sizeOfElement % 2 ^ 64) }, ?_, rfl, rfl, rfl, ?_⟩
  · unfold resizeWith
    simp only [if_neg hnot]
  · intro j hj
    simp only [keptSlots, hbytes, resize, realloc, Outcome.vector]
    rw [if_pos (Nat.mul_le_mul_right _ (by omega))]

/-- C10: on a vector with `length = n <= capacity`, `capacity >= 1`
and a supported width, `push(x)` followed by `pop()` returns with `length = n`
and every element below `n` as it was. -/
theorem push_then_pop (vector : Vector) (element : Elem)
    (_hlen : vector.length ≤ vector.capacity) (_hcap : 1 ≤ vector.capacity)
    (hw : supportedWidth vector.sizeOfElement) :
    ∃ result, run vector [Call.push element, Call.pop] = Outcome.returned result ∧
      result.length = vector.length ∧
      ∀ i, i < vector.length → get result i = get vector i := by
  simp only [run, Call.apply, push_of_supported vector element hw, pop]
  rw [if_neg (by simp)]
  refine ⟨_, rfl, by simp, ?_⟩
  intro i hi
  rw [get_of_lt _ _ (by simpa using hi), get_of_lt _ _ hi]
  simp [storeAt, Nat.ne_of_lt hi]

/-- Witness of C10: a full vector of two `long`s. -/
theorem push_then_pop_witness :
    ∃ result, run { elements := fun j => j + 5, capacity := 2, length := 2, sizeOfElement := 4 }
        [Call.push 9, Call.pop] = Outcome.returned result ∧
      result.length = 2 ∧
      ∀ i, i < 2 → get result i
        = get { elements := fun j => j + 5, capacity := 2, length := 2, sizeOfElement := 4 } i :=
  push_then_pop { elements := fun j => j + 5, capacity := 2, length := 2, sizeOfElement := 4 } 9
    (by decide) (by decide) (by decide)

/-! ## Reversal -/

theorem init_of_unsupported (capacity sizeofElement : Nat) (hw : ¬ supportedWidth sizeofElement) :
    init capacity sizeofElement = Except.error Message.invalidDatatype := by
  unfold init
  rw [if_pos]
  unfold supportedWidth at hw
  omega

/-- The first loop of `reverse` appends the elements below `i` to `temp`, last
one first. -/
theorem reverseFill_spec (vector : Vector) :
    ∀ (i : Nat) (temp : Vector), i ≤ vector.length → supportedWidth temp.sizeOfElement →
      ∃ filled, reverseFill vector i temp = Except.ok filled ∧
        filled.length = temp.length + i ∧
        filled.sizeOfElement = temp.sizeOfElement ∧
        (∀ j, j < i → filled.elements (temp.length + j) = vector.elements (i - 1 - j)) ∧
        (∀ k, k < temp.length → filled.elements k = temp.elements k) := by
  intro i
  induction i with
  | zero =>
    intro temp _ _
    exact ⟨temp, rfl, rfl, rfl, fun j hj => absurd hj (Nat.not_lt_zero j), fun _ _ => rfl⟩
  | succ i ih =>
    intro temp hi hw
    simp only [reverseFill, get_of_lt vector i (by omega), push_of_supported temp _ hw]
    obtain ⟨filled, hrun, hlen, hsz, hnew, hold⟩ := ih
      { elements := storeAt temp.elements temp.length (vector.elements i)
        capacity := if temp.length = temp.capacity then temp.capacity * 2 else temp.capacity
        length := temp.length + 1
        sizeOfElement := temp.sizeOfElement } (by omega) hw
    refine ⟨filled, hrun, ?_, hsz, ?_, ?_⟩
    · simp only at hlen; omega
    · intro j hj
      cases j with
      | zero =>
        have := hold temp.length (by simp)
        simpa [storeAt] using this
      | succ j =>
        have := hnew j (by omega)
        simp only at this
        rw [show temp.length + (j + 1) = temp.length + 1 + j by omega, this]
        congr 1
        omega
    · intro k hk
      have := hold k (by simp only; omega)
      rw [this]
      simp [storeAt, Nat.ne_of_lt hk]

/-- The second loop of `reverse` overwrites the last `remaining` live slots with
the elements of `temp` at the same indices. -/
theorem reverseCopy_spec (temp : Vector) :
    ∀ (remaining : Nat) (vector : Vector), remaining ≤ vector.length →
      vector.length ≤ temp.length →
      ∃ result, reverseCopy temp remaining vector = Outcome.returned result ∧
        result.length = vector.length ∧ result.capacity = vector.capacity ∧
        result.sizeOfElement = vector.sizeOfElement ∧
        ∀ j, result.elements j =
          if vector.length - remaining ≤ j ∧ j < vector.length then temp.elements j
          else vector.elements j := by
  intro remaining
  induction remaining with
  | zero =>
    intro vector _ _
    refine ⟨vector, rfl, rfl, rfl, rfl, ?_⟩
    intro j
    rw [if_neg (by omega)]
  | succ remaining ih =>
    intro vector hr ht
    simp only [reverseCopy, get_of_lt temp (vector.length - (remaining + 1)) (by omega)]
    obtain ⟨result, hrun, hlen, hcap, hsz, hel⟩ := ih
      { vector with
        elements := storeAt vector.elements (vector.length - (remaining + 1))
          (temp.elements (vector.length - (remaining + 1))) } (by simp only; omega) ht
    refine ⟨result, hrun, hlen, hcap, hsz, ?_⟩
    intro j
    rw [hel j]
    simp only [storeAt]
    by_cases h1 : vector.length - remaining ≤ j ∧ j < vector.length
    · rw [if_pos h1, if_pos (by omega)]
    · rw [if_neg h1]
      by_cases h2 : j = vector.length - (remaining + 1)
      · rw [if_pos h2, if_pos (by omega), h2]
      · rw [if_neg h2, if_neg (by omega)]

/-- What `reverse` does to a vector of a supported width. -/
theorem reverse_of_supported (vector : Vector) (hw : supportedWidth vector.sizeOfElement) :
    ∃ result, reverse vector = Outcome.returned result ∧
      result.length = vector.length ∧ result.capacity = vector.capacity ∧
      result.sizeOfElement = vector.sizeOfElement ∧
      ∀ j, result.elements j =
        if j < vector.length then vector.elements (vector.length - 1 - j)
        else vector.elements j := by
  unfold reverse
  rw [init_of_supported _ _ hw]
  obtain ⟨filled, hfill, hlen, -, hnew, -⟩ := reverseFill_spec vector vector.length
    { elements := malloc vector.length, capacity := vector.length, length := 0,
      sizeOfElement := vector.sizeOfElement } (Nat.le_refl _) hw
  simp only [hfill]
  simp only [Nat.zero_add] at hlen hnew
  obtain ⟨result, hrun, hl, hc, hs, hel⟩ :=
    reverseCopy_spec filled vector.length vector (Nat.le_refl _) (by omega)
  refine ⟨result, hrun, hl, hc, hs, ?_⟩
  intro j
  rw [hel j]
  by_cases h : j < vector.length
  · rw [if_pos ⟨by omega, h⟩, if_pos h, hnew j h]
  · rw [if_neg (by omega), if_neg h]

theorem reverse_of_unsupported (vector : Vector) (hw : ¬ supportedWidth vector.sizeOfElement) :
    reverse vector = Outcome.exited Message.invalidDatatype vector := by
  unfold reverse
  rw [init_of_unsupported _ _ hw]

/-- C8: two calls of `reverse()` bring back the order there was: when both
return, every index below the length holds the element it held before, and
length and capacity are as before; and with a width `init` accepts both do
return. -/
theorem reverse_twice_restores (vector : Vector) :
    (∀ result, run vector [Call.reverse, Call.reverse] = Outcome.returned result →
      (∀ i, i < vector.length → get result i = get vector i) ∧
      result.length = vector.length ∧ result.capacity = vector.capacity) ∧
    (supportedWidth vector.sizeOfElement →
      ∃ result, run vector [Call.reverse, Call.reverse] = Outcome.returned result) := by
  by_cases hw : supportedWidth vector.sizeOfElement
  · obtain ⟨once, h1, hl1, hc1, hs1, he1⟩ := reverse_of_supported vector hw
    obtain ⟨twice, h2, hl2, hc2, -, he2⟩ := reverse_of_supported once (hs1 ▸ hw)
    have hrun : run vector [Call.reverse, Call.reverse] = Outcome.returned twice := by
      simp only [run, Call.apply, h1, h2]
    refine ⟨?_, fun _ => ⟨twice, hrun⟩⟩
    intro result hres
    have heq : twice = result := Outcome.returned.inj (hrun.symm.trans hres)
    rw [← heq]
    refine ⟨?_, by omega, by omega⟩
    intro i hi
    have hi1 : i < once.length := by omega
    have hi2 : i < twice.length := by omega
    rw [get_of_lt _ _ hi2, get_of_lt _ _ hi, he2 i, if_pos hi1, he1,
      if_pos (by omega), hl1]
    rw [show vector.length - 1 - (vector.length - 1 - i) = i by omega]
  · refine ⟨?_, fun h => absurd h hw⟩
    intro result hres
    simp only [run, Call.apply, reverse_of_unsupported vector hw] at hres
    cases hres

/-- Witness of C8: three `long`s reversed twice. -/
theorem reverse_twice_restores_witness :
    ∃ result, run { elements := fun j => j + 5, capacity := 4, length := 3, sizeOfElement := 4 }
        [Call.reverse, Call.reverse] = Outcome.returned result ∧
      ((∀ i, i < 3 → get result i
          = get { elements := fun j => j + 5, capacity := 4, length := 3, sizeOfElement := 4 } i) ∧
        result.length = 3 ∧ result.capacity = 4) :=
  have h := reverse_twice_restores
    { elements := fun j => j + 5, capacity := 4, length := 3, sizeOfElement := 4 }
  (h.2 (by decide)).elim fun result hres => ⟨result, hres, h.1 result hres⟩

/-! ## Sorting -/

/-- With a comparator that returns on the pairs it is asked about, the
partition step is a pair of filters. -/
theorem qsortSplit_spec (compare : Nat → Nat → Except Message Int) (order : Nat → Nat → Int)
    (pivot : Nat) :
    ∀ indices : List Nat, (∀ a ∈ indices, compare a pivot = Except.ok (order a pivot)) →
      qsortSplit compare pivot indices = Except.ok
        (indices.filter (fun a => decide (order a pivot < 0)),
         indices.filter (fun a => !decide (order a pivot < 0))) := by
  intro indices
  induction indices with
  | nil => intro _; rfl
  | cons a rest ih =>
    intro h
    have hrest := ih (fun b hb => h b (List.mem_cons_of_mem a hb))
    simp only [qsortSplit, h a (List.mem_cons_self a rest), hrest]
    by_cases hlt : order a pivot < 0
    · simp [hlt]
    · simp [hlt]

/-- The quicksort returns a permutation of the indices, and one in ascending
order of `key` when the comparator agrees with `key` and the depth is enough. -/
theorem qsortRec_spec (compare : Nat → Nat → Except Message Int) (order : Nat → Nat → Int) :
    ∀ (depth : Nat) (indices : List Nat),
      (∀ a ∈ indices, ∀ b ∈ indices, compare a b = Except.ok (order a b)) →
      ∃ sorted, qsortRec compare depth indices = Except.ok sorted ∧ sorted.Perm indices ∧
        ∀ key : Nat → Int,
          (∀ a ∈ indices, ∀ b ∈ indices, (order a b < 0 ↔ key a < key b)) →
          indices.length ≤ depth → sorted.Pairwise (fun a b => key a ≤ key b) := by
  intro depth
  induction depth with
  | zero =>
    intro indices _
    refine ⟨indices, rfl, List.Perm.refl _, ?_⟩
    intro key _ hlen
    have : indices = [] := List.length_eq_zero.mp (Nat.le_zero.mp hlen)
    rw [this]
    exact List.Pairwise.nil
  | succ depth ih =>
    intro indices hpure
    cases indices with
    | nil =>
      exact ⟨[], rfl, List.Perm.refl _, fun _ _ _ => List.Pairwise.nil⟩
    | cons pivot rest =>
      have hsplit := qsortSplit_spec compare order pivot rest
        (fun a ha => hpure a (List.mem_cons_of_mem pivot ha) pivot (List.mem_cons_self pivot rest))
      have hmemB : ∀ a, a ∈ rest.filter (fun a => decide (order a pivot < 0)) → a ∈ pivot :: rest :=
        fun a ha => List.mem_cons_of_mem pivot (List.mem_of_mem_filter ha)
      have hmemO : ∀ a, a ∈ rest.filter (fun a => !decide (order a pivot < 0)) → a ∈ pivot :: rest :=
        fun a ha => List.mem_cons_of_mem pivot (List.mem_of_mem_filter ha)
      obtain ⟨sortedBelow, hB, hpermB, hsortB⟩ :=
        ih (rest.filter (fun a => decide (order a pivot < 0)))
          (fun a ha b hb => hpure a (hmemB a ha) b (hmemB b hb))
      obtain ⟨sortedOthers, hO, hpermO, hsortO⟩ :=
        ih (rest.filter (fun a => !decide (order a pivot < 0)))
          (fun a ha b hb => hpure a (hmemO a ha) b (hmemO b hb))
      refine ⟨sortedBelow ++ pivot :: sortedOthers, ?_, ?_, ?_⟩
      · simp only [qsortRec, hsplit, hB, hO]
      · have h1 : (sortedBelow ++ pivot :: sortedOthers).Perm
            (pivot :: (sortedBelow ++ sortedOthers)) := List.perm_middle
        refine h1.trans (List.Perm.cons pivot ?_)
        exact (List.Perm.append hpermB hpermO).trans (List.filter_append_perm _ rest)
      · intro key hkey hlen
        have hlenB : (rest.filter (fun a => decide (order a pivot < 0))).length ≤ depth :=
          Nat.le_trans (List.length_filter_le _ rest) (by simpa using hlen)
        have hlenO : (rest.filter (fun a => !decide (order a pivot < 0))).length ≤ depth :=
          Nat.le_trans (List.length_filter_le _ rest) (by simpa using hlen)
        have hpB := hsortB key (fun a ha b hb => hkey a (hmemB a ha) b (hmemB b hb)) hlenB
        have hpO := hsortO key (fun a ha b hb => hkey a (hmemO a ha) b (hmemO b hb)) hlenO
        have hbelow : ∀ a ∈ sortedBelow, key a < key pivot := by
          intro a ha
          have hmem := hpermB.mem_iff.mp ha
          have hlt : order a pivot < 0 := by simpa using (List.mem_filter.mp hmem).2
          exact (hkey a (hmemB a hmem) pivot (List.mem_cons_self pivot rest)).mp hlt
        have hothers : ∀ b ∈ sortedOthers, key pivot ≤ key b := by
          intro b hb
          have hmem := hpermO.mem_iff.mp hb
          have hnlt : ¬ order b pivot < 0 := by simpa using (List.mem_filter.mp hmem).2
          have := mt (hkey b (hmemO b hmem) pivot (List.mem_cons_self pivot rest)).mpr hnlt
          omega
        rw [List.pairwise_append]
        refine ⟨hpB, List.Pairwise.cons hothers hpO, ?_⟩
        intro a ha b hb
        have hap := hbelow a ha
        rcases List.mem_cons.mp hb with hbp | hbo
        · rw [hbp]; omega
        · have := hothers b hbo
          omega

/-- On two live indices of a vector of a supported width the comparator
returns. -/
theorem compare_returns (vector : Vector) (hw : supportedWidth vector.sizeOfElement)
    (index1 index2 : Nat) (h1 : index1 < vector.length) (h2 : index2 < vector.length) :
    ∃ order, _compare vector index1 index2 = Except.ok order := by
  unfold _compare
  rw [get_of_lt vector index1 h1, get_of_lt vector index2 h2]
  simp only
  rcases hw with h | h | h
  · rw [if_pos h]
    split
    · exact ⟨_, rfl⟩
    · split <;> exact ⟨_, rfl⟩
  · rw [if_neg (by rw [h]; decide), if_pos h]
    split
    · exact ⟨_, rfl⟩
    · split <;> exact ⟨_, rfl⟩
  · rw [if_neg (by rw [h]; decide), if_neg (by rw [h]; decide), if_pos h]
    split
    · exact ⟨_, rfl⟩
    · split <;> exact ⟨_, rfl⟩

/-- Without a NaN among the live elements the comparator is negative exactly
when the first value is below the second. -/
theorem compare_negative_iff (vector : Vector) (hw : supportedWidth vector.sizeOfElement)
    (hnan : noLiveNaN vector)
    (index1 index2 : Nat) (h1 : index1 < vector.length) (h2 : index2 < vector.length)
    (order : Int) (hc : _compare vector index1 index2 = Except.ok order) :
    order < 0 ↔ valueKey vector.sizeOfElement (vector.elements index1)
      < valueKey vector.sizeOfElement (vector.elements index2) := by
  unfold _compare at hc
  rw [get_of_lt vector index1 h1, get_of_lt vector index2 h2] at hc
  simp only at hc
  unfold valueKey
  rcases hw with h | h | h
  · rw [if_pos h] at hc ⊢
    rw [if_pos h]
    by_cases hlt : asLong (vector.elements index1) < asLong (vector.elements index2)
    · rw [if_pos hlt] at hc
      cases hc
      simp [hlt]
    · rw [if_neg hlt] at hc
      by_cases hgt : asLong (vector.elements index1) > asLong (vector.elements index2)
      · rw [if_pos hgt] at hc
        cases hc
        simp [hlt]
      · rw [if_neg hgt] at hc
        cases hc
        simp [hlt]
  · have hnl : ¬ vector.sizeOfElement = sizeof_long := by rw [h]; decide
    rw [if_neg hnl, if_pos h] at hc ⊢
    rw [if_neg hnl, if_pos h]
    have n1 := hnan h index1 h1
    have n2 := hnan h index2 h2
    by_cases hlt : doubleKey (vector.elements index1) < doubleKey (vector.elements index2)
    · have hd : doubleLt (vector.elements index1) (vector.elements index2) = true := by
        simp [doubleLt, n1, n2, hlt]
      rw [if_pos hd] at hc
      cases hc
      simp [hlt]
    · have hd : ¬ doubleLt (vector.elements index1) (vector.elements index2) = true := by
        simp [doubleLt, n1, n2, hlt]
      rw [if_neg hd] at hc
      by_cases hgt : doubleLt (vector.elements index2) (vector.elements index1) = true
      · rw [if_pos hgt] at hc
        cases hc
        simp [hlt]
      · rw [if_neg hgt] at hc
        cases hc
        simp [hlt]
  · have hnl : ¬ vector.sizeOfElement = sizeof_long := by rw [h]; decide
    have hnd : ¬ vector.sizeOfElement = sizeof_double := by rw [h]; decide
    rw [if_neg hnl, if_neg hnd, if_pos h] at hc
    rw [if_neg hnl, if_neg hnd, if_neg hnl, if_neg hnd]
    by_cases hlt : asChar (vector.elements index1) < asChar (vector.elements index2)
    · rw [if_pos hlt] at hc
      cases hc
      simp [hlt]
    · rw [if_neg hlt] at hc
      by_cases hgt : asChar (vector.elements index1) > asChar (vector.elements index2)
      · rw [if_pos hgt] at hc
        cases hc
        simp [hlt]
      · rw [if_neg hgt] at hc
        cases hc
        simp [hlt]

/-- The loop of `sort` appends to `sorted` the elements at the given indices,
in the order of the list. -/
theorem sortFill_spec (vector : Vector) :
    ∀ (indices : List Nat) (sorted : Vector), (∀ a ∈ indices, a < vector.length) →
      supportedWidth sorted.sizeOfElement →
      ∃ filled, sortFill vector indices sorted = Except.ok filled ∧
        filled.length = sorted.length + indices.length ∧
        (∀ j (h : j < indices.length),
          filled.elements (sorted.length + j) = vector.elements (indices.get ⟨j, h⟩)) ∧
        (∀ k, k < sorted.length → filled.elements k = sorted.elements k) := by
  intro indices
  induction indices with
  | nil =>
    intro sorted _ _
    exact ⟨sorted, rfl, rfl, fun j h => absurd h (Nat.not_lt_zero j), fun _ _ => rfl⟩
  | cons a rest ih =>
    intro sorted hlt hw
    simp only [sortFill, get_of_lt vector a (hlt a (List.mem_cons_self a rest)),
      push_of_supported sorted _ hw]
    obtain ⟨filled, hrun, hlen, hnew, hold⟩ := ih
      { elements := storeAt sorted.elements sorted.length (vector.elements a)
        capacity := if sorted.length = sorted.capacity then sorted.capacity * 2
          else sorted.capacity
        length := sorted.length + 1
        sizeOfElement := sorted.sizeOfElement }
      (fun b hb => hlt b (List.mem_cons_of_mem a hb)) hw
    refine ⟨filled, hrun, ?_, ?_, ?_⟩
    · simp only [List.length_cons] at hlen ⊢; omega
    · intro j hj
      cases j with
      | zero =>
        have := hold sorted.length (by simp)
        simpa [storeAt] using this
      | succ j =>
        have := hnew j (by simpa using hj)
        simp only at this
        rw [show sorted.length + (j + 1) = sorted.length + 1 + j by omega, this]
        rfl
    · intro k hk
      have := hold k (by simp only; omega)
      rw [this]
      simp [storeAt, Nat.ne_of_lt hk]

/-- What `sort` does to a vector of a supported width: the live elements become
the elements at the indices `qsort_s` returns, a permutation of the indices
below the length that is ascending by value when no live element is a NaN. -/
theorem sort_of_supported (vector : Vector) (hw : supportedWidth vector.sizeOfElement) :
    ∃ (indices : List Nat) (result : Vector), sort vector = Outcome.returned result ∧
      indices.Perm (List.range vector.length) ∧
      result.length = vector.length ∧ result.capacity = vector.capacity ∧
      result.sizeOfElement = vector.sizeOfElement ∧
      (∀ j (h : j < indices.length),
        result.elements j = vector.elements (indices.get ⟨j, h⟩)) ∧
      (noLiveNaN vector → indices.Pairwise (fun a b =>
        valueKey vector.sizeOfElement (vector.elements a)
          ≤ valueKey vector.sizeOfElement (vector.elements b))) := by
  have hpure : ∀ a ∈ List.range vector.length, ∀ b ∈ List.range vector.length,
      _compare vector a b = Except.ok
        (match _compare vector a b with
          | Except.ok order => order
          | Except.error _ => 0) := by
    intro a ha b hb
    obtain ⟨order, hc⟩ := compare_returns vector hw a b (List.mem_range.mp ha)
      (List.mem_range.mp hb)
    rw [hc]
  obtain ⟨indices, hq, hperm, hsorted⟩ := qsortRec_spec (_compare vector)
    (fun a b => match _compare vector a b with
      | Except.ok order => order
      | Except.error _ => 0) (List.range vector.length).length (List.range vector.length) hpure
  have hmem : ∀ a ∈ indices, a < vector.length :=
    fun a ha => List.mem_range.mp (hperm.mem_iff.mp ha)
  have hlenI : indices.length = vector.length := by
    rw [hperm.length_eq, List.length_range]
  obtain ⟨filled, hfill, hlenF, hnew, -⟩ := sortFill_spec vector indices
    { elements := malloc vector.capacity, capacity := vector.capacity, length := 0,
      sizeOfElement := vector.sizeOfElement } hmem hw
  simp only [Nat.zero_add] at hlenF hnew
  refine ⟨indices,
    { vector with
      elements := copySlots vector.elements filled.elements vector.length
      length := filled.length }, ?_, hperm, ?_, rfl, rfl, ?_, ?_⟩
  · unfold sort qsort_s
    rw [hq]
    simp only [init_of_supported _ _ hw, hfill]
  · simp only; omega
  · intro j hj
    simp only [copySlots]
    rw [if_pos (by omega), hnew j hj]
  · intro hnan
    apply hsorted _ _ (Nat.le_refl _)
    intro a ha b hb
    obtain ⟨order, hc⟩ := compare_returns vector hw a b (List.mem_range.mp ha)
      (List.mem_range.mp hb)
    rw [hc]
    exact compare_negative_iff vector hw hnan a b (List.mem_range.mp ha) (List.mem_range.mp hb)
      order hc

/-- With a width `init` does not accept, `sort` ends the process. -/
theorem sort_of_unsupported (vector : Vector) (hw : ¬ supportedWidth vector.sizeOfElement) :
    ∃ message, sort vector = Outcome.exited message vector := by
  unfold sort
  cases qsort_s (List.range vector.length) (_compare vector) with
  | error message => exact ⟨message, rfl⟩
  | ok indices =>
    simp only [init_of_unsupported _ _ hw]
    exact ⟨_, rfl⟩

/-- C7: on a vector with `length <= capacity`, the live elements after `sort()`
are a permutation of the live elements before it, and length and capacity are
as before; and `sort()` does return with a width `init` accepts. -/
theorem sort_permutes (vector : Vector) (_hlen : vector.length ≤ vector.capacity) :
    (∀ result, sort vector = Outcome.returned result →
      (live result).Perm (live vector) ∧
      result.length = vector.length ∧ result.capacity = vector.capacity) ∧
    (supportedWidth vector.sizeOfElement →
      ∃ result, sort vector = Outcome.returned result) := by
  by_cases hw : supportedWidth vector.sizeOfElement
  · obtain ⟨indices, sorted, hsort, hperm, hlen, hcap, -, hel, -⟩ :=
      sort_of_supported vector hw
    refine ⟨?_, fun _ => ⟨sorted, hsort⟩⟩
    intro result hres
    have heq : sorted = result := Outcome.returned.inj (hsort.symm.trans hres)
    rw [← heq]
    refine ⟨?_, hlen, hcap⟩
    have hlenI : indices.length = vector.length := by
      rw [hperm.length_eq, List.length_range]
    have hlive : live sorted = indices.map vector.elements := by
      apply List.ext_getElem
      · rw [live_length, List.length_map]; omega
      · intro j h1 h2
        rw [live_getElem, List.getElem_map]
        exact hel j (by simpa using h2)
    rw [hlive]
    exact hperm.map vector.elements
  · refine ⟨?_, fun h => absurd h hw⟩
    intro result hres
    obtain ⟨message, hexit⟩ := sort_of_unsupported vector hw
    rw [hexit] at hres
    cases hres

/-- Witness of C7: the `long`s 7, 5 and 6. -/
theorem sort_permutes_witness :
    ∃ result,
      sort { elements := fun j => if j = 0 then 7 else if j = 1 then 5 else 6
             capacity := 4, length := 3, sizeOfElement := 4 }
        = Outcome.returned result ∧
      ((live result).Perm
          (live { elements := fun j => if j = 0 then 7 else if j = 1 then 5 else 6
                  capacity := 4, length := 3, sizeOfElement := 4 }) ∧
        result.length = 3 ∧ result.capacity = 4) :=
  have h := sort_permutes
    { elements := fun j => if j = 0 then 7 else if j = 1 then 5 else 6
      capacity := 4, length := 3, sizeOfElement := 4 } (by decide)
  (h.2 (by decide)).elim fun result hres => ⟨result, hres, h.1 result hres⟩

/-! ## Exits of `pop`, `get` and `init`, and `clear` -/

/-- C11: `pop()` exits exactly when `length = 0`, with "Vector is empty" and the
vector as it was; with `length = n >= 1` it returns with `length = n - 1`, and
capacity, width and every element below `n - 1` as before. -/
theorem pop_exits_exactly_when_empty (vector : Vector) :
    ((∃ message state, pop vector = Outcome.exited message state) ↔ vector.length = 0) ∧
    (vector.length = 0 → pop vector = Outcome.exited Message.emptyVector vector) ∧
    (1 ≤ vector.length →
      ∃ result, pop vector = Outcome.returned result ∧
        result.length = vector.length - 1 ∧
        result.capacity = vector.capacity ∧
        result.sizeOfElement = vector.sizeOfElement ∧
        ∀ i, i < vector.length - 1 → get result i = get vector i) := by
  refine ⟨?_, ?_, ?_⟩
  · constructor
    · rintro ⟨message, state, h⟩
      by_contra hne
      unfold pop at h
      rw [if_neg hne] at h
      cases h
    · intro h
      exact ⟨Message.emptyVector, vector, by unfold pop; rw [if_pos h]⟩
  · intro h
    unfold pop
    rw [if_pos h]
  · intro h
    refine ⟨{ vector with length := vector.length - 1 }, ?_, rfl, rfl, rfl, ?_⟩
    · unfold pop
      rw [if_neg (by omega)]
    · intro i hi
      rw [get_of_lt _ _ hi, get_of_lt _ _ (by omega)]

/-- Witness of C11: an empty vector, and a vector of three `char`s. -/
theorem pop_exits_exactly_when_empty_witness :
    pop { elements := fun j => j + 5, capacity := 4, length := 0, sizeOfElement := 1 }
      = Outcome.exited Message.emptyVector
          { elements := fun j => j + 5, capacity := 4, length := 0, sizeOfElement := 1 } ∧
    ∃ result, pop { elements := fun j => j + 5, capacity := 4, length := 3, sizeOfElement := 1 }
        = Outcome.returned result ∧
      result.length = 3 - 1 ∧ result.capacity = 4 ∧ result.sizeOfElement = 1 ∧
      ∀ i, i < 3 - 1 → get result i
        = get { elements := fun j => j + 5, capacity := 4, length := 3, sizeOfElement := 1 } i :=
  ⟨(pop_exits_exactly_when_empty
      { elements := fun j => j + 5, capacity := 4, length := 0, sizeOfElement := 1 }).2.1 rfl,
   (pop_exits_exactly_when_empty
      { elements := fun j => j + 5, capacity := 4, length := 3, sizeOfElement := 1 }).2.2
      (by decide)⟩

/-- C12: `get(index)` exits exactly when `index >= length`, with "Invalid
index"; for `index < length` it returns the element stored in slot `index`,
which is entry `index` of the live elements; either way the vector after the
call is the vector before it. -/
theorem get_exits_exactly_when_out_of_range (vector : Vector) (index : Nat) :
    ((∃ message, (getCall vector index).1 = Except.error message) ↔ vector.length ≤ index) ∧
    (vector.length ≤ index → (getCall vector index).1 = Except.error Message.invalidIndex) ∧
    (index < vector.length →
      (getCall vector index).1 = Except.ok (vector.elements index) ∧
      (live vector)[index]? = some (vector.elements index)) ∧
    (getCall vector index).2 = vector := by
  refine ⟨?_, ?_, ?_, rfl⟩
  · constructor
    · rintro ⟨message, h⟩
      by_contra hlt
      simp only [getCall] at h
      rw [get_of_lt _ _ (by omega)] at h
      cases h
    · intro h
      exact ⟨Message.invalidIndex, get_of_ge vector index h⟩
  · intro h
    exact get_of_ge vector index h
  · intro h
    refine ⟨get_of_lt vector index h, ?_⟩
    rw [List.getElem?_eq_getElem (by rw [live_length]; exact h), live_getElem]

/-- Witness of C12: index 3 and index 1 of a vector of three `long`s. -/
theorem get_exits_exactly_when_out_of_range_witness :
    (getCall { elements := fun j => j + 5, capacity := 4, length := 3, sizeOfElement := 4 } 3).1
      = Except.error Message.invalidIndex ∧
    ((getCall { elements := fun j => j + 5, capacity := 4, length := 3, sizeOfElement := 4 } 1).1
        = Except.ok 6 ∧
      (live { elements := fun j => j + 5, capacity := 4, length := 3, sizeOfElement := 4 })[1]?
        = some 6) :=
  ⟨(get_exits_exactly_when_out_of_range
      { elements := fun j => j + 5, capacity := 4, length := 3, sizeOfElement := 4 } 3).2.1
      (by decide),
   (get_exits_exactly_when_out_of_range
      { elements := fun j => j + 5, capacity := 4, length := 3, sizeOfElement := 4 } 1).2.2.1
      (by decide)⟩

/-- With a `malloc` that grants every request, `initWith` is `init`. -/
theorem initWith_of_granted (grants : Nat → Bool) (capacity sizeofElement : Nat)
    (hg : grants (capacity * sizeofElement % 2 ^ 64) = true) :
    initWith grants capacity sizeofElement = init capacity sizeofElement := by
  unfold initWith init
  by_cases hw : sizeofElement ≠ sizeof_long ∧ sizeofElement ≠ sizeof_double ∧
      sizeofElement ≠ sizeof_char
  · rw [if_pos hw, if_pos hw]
  · rw [if_neg hw, if_neg hw, if_neg (by rw [hg]; decide)]

/-- C13 as stated fails: `init(2^60, sizeof(double))` asks `malloc` for `2^63`
bytes; with a `malloc` that returns NULL for `2^47` bytes or more the call
exits with "Memory allocation failed" although the width is supported. -/
theorem init_exits_when_malloc_returns_null :
    supportedWidth sizeof_double ∧
    initWith (fun bytes => decide (bytes < 2 ^ 47)) (2 ^ 60) sizeof_double
      = Except.error Message.memoryAllocationFailed :=
  ⟨by decide, rfl⟩

/-- C13, amended: `init(capacity, width)` exits exactly when the width is none
of the three supported ones or `malloc` returns NULL for the
`capacity * width` bytes; with a supported width and a buffer that `malloc`
grants (for every capacity, 0 too) it returns a vector with `length = 0`, the
capacity and the width of the arguments, and `isEmpty()` true. -/
theorem init_exits_exactly_when (grants : Nat → Bool) (capacity width : Nat) :
    ((∃ message, initWith grants capacity width = Except.error message) ↔
      (¬ supportedWidth width ∨ grants (capacity * width % 2 ^ 64) = false)) ∧
    (supportedWidth width → grants (capacity * width % 2 ^ 64) = true →
      ∃ created, initWith grants capacity width = Except.ok created ∧
        created.length = 0 ∧ created.capacity = capacity ∧
        created.sizeOfElement = width ∧ isEmpty created = true) := by
  have hok : supportedWidth width → grants (capacity * width % 2 ^ 64) = true →
      initWith grants capacity width = Except.ok
        { elements := malloc capacity, capacity := capacity, length := 0,
          sizeOfElement := width } := by
    intro hw hg
    rw [initWith_of_granted grants capacity width hg, init_of_supported capacity width hw]
  refine ⟨?_, ?_⟩
  · constructor
    · rintro ⟨message, h⟩
      by_contra hn
      simp only [not_or, not_not, Bool.not_eq_false] at hn
      rw [hok hn.1 hn.2] at h
      cases h
    · rintro (hw | hg)
      · refine ⟨Message.invalidDatatype, ?_⟩
        unfold initWith
        rw [if_pos]
        unfold supportedWidth at hw
        omega
      · by_cases hw : supportedWidth width
        · refine ⟨Message.memoryAllocationFailed, ?_⟩
          unfold initWith
          rw [if_neg (by unfold supportedWidth at hw; omega), if_pos hg]
        · refine ⟨Message.invalidDatatype, ?_⟩
          unfold initWith
          rw [if_pos]
          unfold supportedWidth at hw
          omega
  · intro hw hg
    exact ⟨_, hok hw hg, rfl, rfl, rfl, rfl⟩

/-- Witness of C13: capacity 0 and the width of `double`, with a `malloc` that
grants requests below `2^47` bytes. -/
theorem init_exits_exactly_when_witness :
    ∃ created, initWith (fun bytes => decide (bytes < 2 ^ 47)) 0 8 = Except.ok created ∧
      created.length = 0 ∧ created.capacity = 0 ∧
      created.sizeOfElement = 8 ∧ isEmpty created = true :=
  (init_exits_exactly_when (fun bytes => decide (bytes < 2 ^ 47)) 0 8).2 (by decide) (by decide)

/-- C14: `clear()` returns with `length = 0` and `isEmpty()` true, and with the
capacity and the width of before. -/
theorem clear_empties_and_keeps_capacity (vector : Vector) :
    ∃ result, clear vector = Outcome.returned result ∧
      result.length = 0 ∧ isEmpty result = true ∧
      result.capacity = vector.capacity ∧
      result.sizeOfElement = vector.sizeOfElement :=
  ⟨{ vector with length := 0 }, rfl, rfl, rfl, rfl, rfl⟩

/-! ## The width and the capacity invariant along a program -/

/-- A `reverse` that returns leaves length, capacity and width as they were. -/
theorem reverse_returned_fields (vector result : Vector)
    (h : reverse vector = Outcome.returned result) :
    result.length = vector.length ∧ result.capacity = vector.capacity ∧
      result.sizeOfElement = vector.sizeOfElement := by
  by_cases hw : supportedWidth vector.sizeOfElement
  · obtain ⟨reversed, hrev, hl, hc, hs, -⟩ := reverse_of_supported vector hw
    have heq : reversed = result := Outcome.returned.inj (hrev.symm.trans h)
    rw [← heq]
    exact ⟨hl, hc, hs⟩
  · rw [reverse_of_unsupported vector hw] at h
    cases h

/-- A `sort` that returns leaves length, capacity and width as they were. -/
theorem sort_returned_fields (vector result : Vector)
    (h : sort vector = Outcome.returned result) :
    result.length = vector.length ∧ result.capacity = vector.capacity ∧
      result.sizeOfElement = vector.sizeOfElement := by
  by_cases hw : supportedWidth vector.sizeOfElement
  · obtain ⟨indices, sorted, hsort, -, hl, hc, hs, -, -⟩ := sort_of_supported vector hw
    have heq : sorted = result := Outcome.returned.inj (hsort.symm.trans h)
    rw [← heq]
    exact ⟨hl, hc, hs⟩
  · obtain ⟨message, hexit⟩ := sort_of_unsupported vector hw
    rw [hexit] at h
    cases h

/-- On a vector of a supported width a call (with an allocator that provides
memory) either returns a vector of the same width, or it is a `pop` or an
`erase` that exits with its own message and the vector as it was. -/
theorem apply_of_supported (vector : Vector) (hw : supportedWidth vector.sizeOfElement)
    (call : Call) :
    (∃ result, call.apply vector = Outcome.returned result ∧
      result.sizeOfElement = vector.sizeOfElement) ∨
    (∃ message, call.apply vector = Outcome.exited message vector ∧
      (message = Message.emptyVector ∨ message = Message.invalidIndex)) := by
  cases call with
  | push element =>
    exact Or.inl ⟨_, push_of_supported vector element hw, rfl⟩
  | pop =>
    by_cases h : vector.length = 0
    · exact Or.inr ⟨Message.emptyVector, by simp only [Call.apply, pop, if_pos h], Or.inl rfl⟩
    · exact Or.inl ⟨{ vector with length := vector.length - 1 },
        by simp only [Call.apply, pop, if_neg h], rfl⟩
  | erase index =>
    by_cases h : index ≥ vector.length
    · exact Or.inr ⟨Message.invalidIndex, by simp only [Call.apply, erase, if_pos h], Or.inr rfl⟩
    · exact Or.inl ⟨{ vector with
          elements := moveDown vector.elements index (vector.length - index - 1)
          length := vector.length - 1 },
        by simp only [Call.apply, erase, if_neg h], rfl⟩
  | clear => exact Or.inl ⟨_, rfl, rfl⟩
  | resize capacity => exact Or.inl ⟨_, rfl, rfl⟩
  | reverse =>
    obtain ⟨result, hrev, -, -, hs, -⟩ := reverse_of_supported vector hw
    exact Or.inl ⟨result, hrev, hs⟩
  | sort =>
    obtain ⟨indices, result, hsort, -, -, -, hs, -, -⟩ := sort_of_supported vector hw
    exact Or.inl ⟨result, hsort, hs⟩

/-- Along a program on a vector of a supported width the width stays, and, the
allocator providing memory, the only exits are those of `pop` on an empty
vector and of `erase` on a bad index. -/
theorem run_of_supported (calls : List Call) :
    ∀ vector : Vector, supportedWidth vector.sizeOfElement →
      (run vector calls).vector.sizeOfElement = vector.sizeOfElement ∧
      ∀ message state, run vector calls = Outcome.exited message state →
        message = Message.emptyVector ∨ message = Message.invalidIndex := by
  induction calls with
  | nil =>
    intro vector _
    exact ⟨rfl, fun message state h => by simp only [run] at h; cases h⟩
  | cons call rest ih =>
    intro vector hw
    rcases apply_of_supported vector hw call with ⟨result, happly, hs⟩ | ⟨message, happly, hm⟩
    · simp only [run, happly]
      obtain ⟨hsize, hexit⟩ := ih result (hs ▸ hw)
      exact ⟨hsize.trans hs, hexit⟩
    · simp only [run, happly]
      refine ⟨rfl, ?_⟩
      intro message2 state h
      have := (Outcome.exited.inj h).1
      rw [← this]
      exact hm

/-- With a supported width the comparator never takes its `default` case. -/
theorem compare_of_supported (vector : Vector) (hw : supportedWidth vector.sizeOfElement)
    (index1 index2 : Nat) :
    _compare vector index1 index2 ≠ Except.error Message.unsupportedElementSize := by
  unfold _compare
  by_cases h1 : index1 < vector.length
  · rw [get_of_lt vector index1 h1]
    by_cases h2 : index2 < vector.length
    · rw [get_of_lt vector index2 h2]
      simp only
      rcases hw with h | h | h
      · rw [if_pos h]
        split_ifs <;> simp
      · rw [if_neg (by rw [h]; decide), if_pos h]
        split_ifs <;> simp
      · rw [if_neg (by rw [h]; decide), if_neg (by rw [h]; decide), if_pos h]
        split_ifs <;> simp
    · rw [get_of_ge vector index2 (by omega)]
      simp
  · rw [get_of_ge vector index1 (by omega)]
    simp

/-- C16: for the vector a successful `init(capacity, width)` returned and every
sequence of calls made on it, the width is supported, the width the vector has
when the sequence is over (`vectorElementSize`) is `width`, the `switch` of
`push` and the comparator `_compare` do not take their unsupported-width case
on that vector, and no call of the sequence exits with one of the messages of
an unsupported width ("Unsupported element size", "Invalid element size",
"Invalid datatype"). -/
theorem width_is_fixed_and_supported (capacity width : Nat) (created : Vector)
    (calls : List Call) (hinit : init capacity width = Except.ok created) :
    supportedWidth width ∧
    vectorElementSize (run created calls).vector = width ∧
    pushSwitch (run created calls).vector = none ∧
    (∀ index1 index2, _compare (run created calls).vector index1 index2
      ≠ Except.error Message.unsupportedElementSize) ∧
    (∀ message state, run created calls = Outcome.exited message state →
      message ≠ Message.unsupportedElementSize ∧ message ≠ Message.invalidElementSize ∧
      message ≠ Message.invalidDatatype) := by
  have hw : supportedWidth width := by
    by_contra hn
    rw [init_of_unsupported capacity width hn] at hinit
    cases hinit
  rw [init_of_supported capacity width hw] at hinit
  have hcreated : created.sizeOfElement = width := by
    cases hinit
    rfl
  obtain ⟨hsize, hexit⟩ := run_of_supported calls created (hcreated ▸ hw)
  have hfinal : (run created calls).vector.sizeOfElement = width := hsize.trans hcreated
  have hwf : supportedWidth (run created calls).vector.sizeOfElement := hfinal ▸ hw
  refine ⟨hw, hfinal, pushSwitch_of_supported _ hwf,
    fun index1 index2 => compare_of_supported _ hwf index1 index2, ?_⟩
  intro message state hrun
  rcases hexit message state hrun with h | h <;> rw [h] <;> decide

/-- Witness of C16: a vector of `long`s on which `pop` exits in the middle of a
program. -/
theorem width_is_fixed_and_supported_witness :
    supportedWidth 4 ∧
    vectorElementSize
      (run { elements := malloc 2, capacity := 2, length := 0, sizeOfElement := 4 }
        [Call.push 7, Call.sort, Call.pop, Call.pop, Call.reverse]).vector = 4 ∧
    pushSwitch
      (run { elements := malloc 2, capacity := 2, length := 0, sizeOfElement := 4 }
        [Call.push 7, Call.sort, Call.pop, Call.pop, Call.reverse]).vector = none ∧
    (∀ index1 index2, _compare
      (run { elements := malloc 2, capacity := 2, length := 0, sizeOfElement := 4 }
        [Call.push 7, Call.sort, Call.pop, Call.pop, Call.reverse]).vector index1 index2
      ≠ Except.error Message.unsupportedElementSize) ∧
    (∀ message state,
      run { elements := malloc 2, capacity := 2, length := 0, sizeOfElement := 4 }
        [Call.push 7, Call.sort, Call.pop, Call.pop, Call.reverse]
        = Outcome.exited message state →
      message ≠ Message.unsupportedElementSize ∧ message ≠ Message.invalidElementSize ∧
      message ≠ Message.invalidDatatype) :=
  width_is_fixed_and_supported 2 4 _ [Call.push 7, Call.sort, Call.pop, Call.pop, Call.reverse] rfl

/-- C17: on a vector of a supported width with the elements
`e0 .. e(n-1)`, `reverse()` returns (so none of its calls of `init`, `get` and
`push` exits) and the element at every index `i < n` is the one that was at
`n - 1 - i`: the live elements are the former ones in reverse order; length,
capacity and width are as before. -/
theorem reverse_reverses (vector : Vector) (hw : supportedWidth vector.sizeOfElement) :
    ∃ result, reverse vector = Outcome.returned result ∧
      (∀ i, i < vector.length →
        get result i = Except.ok (vector.elements (vector.length - 1 - i))) ∧
      live result = (live vector).reverse ∧
      result.length = vector.length ∧ result.capacity = vector.capacity ∧
      result.sizeOfElement = vector.sizeOfElement := by
  obtain ⟨result, hrev, hl, hc, hs, hel⟩ := reverse_of_supported vector hw
  refine ⟨result, hrev, ?_, ?_, hl, hc, hs⟩
  · intro i hi
    rw [get_of_lt _ _ (by omega), hel i, if_pos hi]
  · apply List.ext_getElem
    · simp only [live_length, List.length_reverse, hl]
    · intro j h1 h2
      rw [live_length] at h1
      rw [live_getElem, List.getElem_reverse, live_getElem, hel j, if_pos (by omega), live_length]

/-- Witness of C17: three `long`s. -/
theorem reverse_reverses_witness :
    ∃ result,
      reverse { elements := fun j => j + 5, capacity := 4, length := 3, sizeOfElement := 4 }
        = Outcome.returned result ∧
      (∀ i, i < 3 → get result i = Except.ok ((fun j => j + 5) (3 - 1 - i))) ∧
      live result
        = (live { elements := fun j => j + 5, capacity := 4, length := 3,
                  sizeOfElement := 4 }).reverse ∧
      result.length = 3 ∧ result.capacity = 4 ∧ result.sizeOfElement = 4 :=
  reverse_reverses { elements := fun j => j + 5, capacity := 4, length := 3, sizeOfElement := 4 }
    (by decide)

/-- C18: on a vector with `length = n >= 1`, `erase(n - 1)` and `pop()` both
return, with the same length, capacity and width and the same live elements
(the same contents of every slot, in fact). -/
theorem erase_last_is_pop (vector : Vector) (h : 1 ≤ vector.length) :
    ∃ erased popped, erase vector (vector.length - 1) = Outcome.returned erased ∧
      pop vector = Outcome.returned popped ∧
      erased.length = popped.length ∧ erased.capacity = popped.capacity ∧
      erased.sizeOfElement = popped.sizeOfElement ∧
      live erased = live popped ∧
      ∀ j, erased.elements j = popped.elements j := by
  have hslots : ∀ j, moveDown vector.elements (vector.length - 1)
      (vector.length - (vector.length - 1) - 1) j = vector.elements j := by
    intro j
    unfold moveDown
    rw [if_neg (by omega)]
  refine ⟨_, { vector with length := vector.length - 1 },
    erase_of_lt vector (vector.length - 1) (by omega), ?_, rfl, rfl, rfl, ?_, hslots⟩
  · unfold pop
    rw [if_neg (by omega)]
  · apply List.ext_getElem
    · simp only [live_length]
    · intro j h1 h2
      rw [live_getElem, live_getElem]
      exact hslots j

/-- Witness of C18: three `char`s. -/
theorem erase_last_is_pop_witness :
    ∃ erased popped,
      erase { elements := fun j => j + 5, capacity := 4, length := 3, sizeOfElement := 1 } (3 - 1)
        = Outcome.returned erased ∧
      pop { elements := fun j => j + 5, capacity := 4, length := 3, sizeOfElement := 1 }
        = Outcome.returned popped ∧
      erased.length = popped.length ∧ erased.capacity = popped.capacity ∧
      erased.sizeOfElement = popped.sizeOfElement ∧
      live erased = live popped ∧
      ∀ j, erased.elements j = popped.elements j :=
  erase_last_is_pop { elements := fun j => j + 5, capacity := 4, length := 3, sizeOfElement := 1 }
    (by decide)

/-- C20: from a state with `length <= capacity`, a `pop`, `erase`, `clear`,
`resize`, `reverse` or `sort` that returns leaves `length <= capacity`, and so
does a `push` that returns when `capacity >= 1`. -/
theorem each_call_keeps_length_below_capacity (vector : Vector)
    (h : vector.length ≤ vector.capacity) :
    (∀ result, pop vector = Outcome.returned result → result.length ≤ result.capacity) ∧
    (∀ index result, erase vector index = Outcome.returned result →
      result.length ≤ result.capacity) ∧
    (∀ result, clear vector = Outcome.returned result → result.length ≤ result.capacity) ∧
    (∀ capacity result, resize vector capacity = Outcome.returned result →
      result.length ≤ result.capacity) ∧
    (∀ result, reverse vector = Outcome.returned result → result.length ≤ result.capacity) ∧
    (∀ result, sort vector = Outcome.returned result → result.length ≤ result.capacity) ∧
    (1 ≤ vector.capacity → ∀ element result, push vector element = Outcome.returned result →
      result.length ≤ result.capacity) := by
  refine ⟨?_, ?_, ?_, ?_, ?_, ?_, ?_⟩
  · intro result hres
    unfold pop at hres
    by_cases h0 : vector.length = 0
    · rw [if_pos h0] at hres
      cases hres
    · rw [if_neg h0] at hres
      rw [← Outcome.returned.inj hres]
      simp only
      omega
  · intro index result hres
    unfold erase at hres
    by_cases h0 : index ≥ vector.length
    · rw [if_pos h0] at hres
      cases hres
    · rw [if_neg h0] at hres
      rw [← Outcome.returned.inj hres]
      simp only
      omega
  · intro result hres
    rw [← Outcome.returned.inj hres]
    exact Nat.zero_le _
  · intro capacity result hres
    rw [← Outcome.returned.inj hres]
    simp only
    split_ifs <;> omega
  · intro result hres
    obtain ⟨hl, hc, -⟩ := reverse_returned_fields vector result hres
    omega
  · intro result hres
    obtain ⟨hl, hc, -⟩ := sort_returned_fields vector result hres
    omega
  · intro hcap element result hres
    by_cases hw : supportedWidth vector.sizeOfElement
    · rw [push_of_supported vector element hw] at hres
      rw [← Outcome.returned.inj hres]
      simp only
      split_ifs <;> omega
    · unfold push at hres
      rw [pushSwitch_of_unsupported vector hw] at hres
      cases hres

/-- Witness of C20: a full vector of two `long`s, on which every call returns. -/
theorem each_call_keeps_length_below_capacity_witness :
    (∃ result, pop { elements := fun j => 9 - j, capacity := 2, length := 2, sizeOfElement := 4 }
        = Outcome.returned result ∧ result.length ≤ result.capacity) ∧
    (∃ result, erase { elements := fun j => 9 - j, capacity := 2, length := 2, sizeOfElement := 4 } 0
        = Outcome.returned result ∧ result.length ≤ result.capacity) ∧
    (∃ result, clear { elements := fun j => 9 - j, capacity := 2, length := 2, sizeOfElement := 4 }
        = Outcome.returned result ∧ result.length ≤ result.capacity) ∧
    (∃ result, resize { elements := fun j => 9 - j, capacity := 2, length := 2, sizeOfElement := 4 } 1
        = Outcome.returned result ∧ result.length ≤ result.capacity) ∧
    (∃ result, reverse { elements := fun j => 9 - j, capacity := 2, length := 2, sizeOfElement := 4 }
        = Outcome.returned result ∧ result.length ≤ result.capacity) ∧
    (∃ result, sort { elements := fun j => 9 - j, capacity := 2, length := 2, sizeOfElement := 4 }
        = Outcome.returned result ∧ result.length ≤ result.capacity) ∧
    (∃ result, push { elements := fun j => 9 - j, capacity := 2, length := 2, sizeOfElement := 4 } 7
        = Outcome.returned result ∧ result.length ≤ result.capacity) :=
  have h := each_call_keeps_length_below_capacity
    { elements := fun j => 9 - j, capacity := 2, length := 2, sizeOfElement := 4 } (by decide)
  ⟨⟨_, rfl, h.1 _ rfl⟩, ⟨_, rfl, h.2.1 0 _ rfl⟩, ⟨_, rfl, h.2.2.1 _ rfl⟩,
   ⟨_, rfl, h.2.2.2.1 1 _ rfl⟩, ⟨_, rfl, h.2.2.2.2.1 _ rfl⟩, ⟨_, rfl, h.2.2.2.2.2.1 _ rfl⟩,
   ⟨_, rfl, h.2.2.2.2.2.2 (by decide) 7 _ rfl⟩⟩

/-! ## Sorting after a reversal -/

/-- In a vector of a supported width without a live NaN, `sort` returns a
vector whose live elements are a permutation of the former ones and ascend by
value. -/
theorem sort_live_spec (vector : Vector) (hw : supportedWidth vector.sizeOfElement)
    (hnan : noLiveNaN vector) :
    ∃ result, sort vector = Outcome.returned result ∧
      (live result).Perm (live vector) ∧
      ((live result).map (valueKey vector.sizeOfElement)).Pairwise (fun a b => a ≤ b) ∧
      result.length = vector.length ∧ result.sizeOfElement = vector.sizeOfElement := by
  obtain ⟨indices, result, hsort, hperm, hlen, -, hsz, hel, hpair⟩ :=
    sort_of_supported vector hw
  have hlenI : indices.length = vector.length := by
    rw [hperm.length_eq, List.length_range]
  have hlive : live result = indices.map vector.elements := by
    apply List.ext_getElem
    · rw [live_length, List.length_map]; omega
    · intro j h1 h2
      rw [live_getElem, List.getElem_map]
      exact hel j (by simpa using h2)
  refine ⟨result, hsort, ?_, ?_, hlen, hsz⟩
  · rw [hlive]
    exact hperm.map vector.elements
  · rw [hlive, List.map_map, List.pairwise_map]
    exact hpair hnan

/-- Two elements of four bytes with the same value as `long` are the same. -/
theorem asLong_injective (a b : Nat) (ha : a < 2 ^ 32) (hb : b < 2 ^ 32)
    (h : asLong a = asLong b) : a = b := by
  unfold asLong at h
  rw [Nat.mod_eq_of_lt ha, Nat.mod_eq_of_lt hb] at h
  norm_num at ha hb h
  split_ifs at h <;> omega

/-- Two elements of one byte with the same value as `char` are the same. -/
theorem asChar_injective (a b : Nat) (ha : a < 2 ^ 8) (hb : b < 2 ^ 8)
    (h : asChar a = asChar b) : a = b := by
  unfold asChar at h
  rw [Nat.mod_eq_of_lt ha, Nat.mod_eq_of_lt hb] at h
  norm_num at ha hb h
  split_ifs at h <;> omega

/-- Every live element of one vector is a live element of the other when the
live elements are permutations of each other. -/
theorem live_slot_of_perm (vector other : Vector) (hperm : (live other).Perm (live vector))
    (i : Nat) (hi : i < other.length) :
    ∃ j, j < vector.length ∧ other.elements i = vector.elements j := by
  have hmem : other.elements i ∈ live other := by
    unfold live
    exact List.mem_map.mpr ⟨i, List.mem_range.mpr hi, rfl⟩
  have hmem2 := hperm.mem_iff.mp hmem
  unfold live at hmem2
  obtain ⟨j, hj, hjeq⟩ := List.mem_map.mp hmem2
  exact ⟨j, List.mem_range.mp hj, hjeq.symm⟩

/-- What `sort` gives after `reverse`, next to what it gives alone, on a vector
of a supported width without a live NaN. -/
theorem sort_after_reverse_spec (vector : Vector) (hw : supportedWidth vector.sizeOfElement)
    (hnan : noLiveNaN vector) :
    ∃ sorted resorted, sort vector = Outcome.returned sorted ∧
      run vector [Call.reverse, Call.sort] = Outcome.returned resorted ∧
      sorted.length = vector.length ∧ resorted.length = vector.length ∧
      (live sorted).Perm (live vector) ∧ (live resorted).Perm (live vector) ∧
      ∀ i, i < vector.length →
        valueKey vector.sizeOfElement (resorted.elements i)
          = valueKey vector.sizeOfElement (sorted.elements i) := by
  obtain ⟨sorted, hsort, hperm1, hpair1, hlen1, -⟩ := sort_live_spec vector hw hnan
  obtain ⟨reversed, hrev, hlr, -, hsr, her⟩ := reverse_of_supported vector hw
  have hliveR : live reversed = (live vector).reverse := by
    apply List.ext_getElem
    · simp only [live_length, List.length_reverse, hlr]
    · intro j h1 h2
      rw [live_length] at h1
      rw [live_getElem, List.getElem_reverse, live_getElem, her j, if_pos (by omega),
        live_length]
  have hnanR : noLiveNaN reversed := by
    intro hd i hi
    rw [her i, if_pos (by omega)]
    exact hnan (hsr ▸ hd) _ (by omega)
  obtain ⟨resorted, hsort2, hperm2, hpair2, hlen2, -⟩ :=
    sort_live_spec reversed (hsr ▸ hw) hnanR
  rw [hsr] at hpair2
  have hperm2v : (live resorted).Perm (live vector) :=
    hperm2.trans (hliveR ▸ List.reverse_perm (live vector))
  have hkeys : (live resorted).map (valueKey vector.sizeOfElement)
      = (live sorted).map (valueKey vector.sizeOfElement) :=
    List.eq_of_perm_of_sorted ((hperm2v.trans hperm1.symm).map _) hpair2 hpair1
  refine ⟨sorted, resorted, hsort, ?_, hlen1, by omega, hperm1, hperm2v, ?_⟩
  · simp only [run, Call.apply, hrev, hsort2]
  · intro i hi
    have h1 : i < ((live resorted).map (valueKey vector.sizeOfElement)).length := by
      rw [List.length_map, live_length]; omega
    have h2 : i < ((live sorted).map (valueKey vector.sizeOfElement)).length := by
      rw [List.length_map, live_length]; omega
    have hget : ((live resorted).map (valueKey vector.sizeOfElement))[i]
        = ((live sorted).map (valueKey vector.sizeOfElement))[i] := by
      simp only [hkeys]
    simpa [live] using hget

/-- C19 as stated fails: in a vector of `double`s holding a NaN and 1.0, `sort()`
alone leaves the NaN at index 0 and `reverse()` followed by `sort()` leaves 1.0
there; and in a vector holding +0.0 and -0.0, which compare equal, `sort()` alone
leaves +0.0 at index 0 and `reverse()` followed by `sort()` leaves -0.0 there. -/
theorem sort_after_reverse_differs :
    (∃ sorted resorted,
      sort { elements := fun j => if j = 0 then 0x7FF8000000000000 else 0x3FF0000000000000
             capacity := 2, length := 2, sizeOfElement := sizeof_double }
        = Outcome.returned sorted ∧
      run { elements := fun j => if j = 0 then 0x7FF8000000000000 else 0x3FF0000000000000
            capacity := 2, length := 2, sizeOfElement := sizeof_double }
          [Call.reverse, Call.sort] = Outcome.returned resorted ∧
      sorted.elements 0 = 0x7FF8000000000000 ∧ resorted.elements 0 = 0x3FF0000000000000 ∧
      sorted.elements 0 ≠ resorted.elements 0) ∧
    (∃ sorted resorted,
      sort { elements := fun j => if j = 0 then 0 else 0x8000000000000000
             capacity := 2, length := 2, sizeOfElement := sizeof_double }
        = Outcome.returned sorted ∧
      run { elements := fun j => if j = 0 then 0 else 0x8000000000000000
            capacity := 2, length := 2, sizeOfElement := sizeof_double }
          [Call.reverse, Call.sort] = Outcome.returned resorted ∧
      sorted.elements 0 = 0 ∧ resorted.elements 0 = 0x8000000000000000 ∧
      sorted.elements 0 ≠ resorted.elements 0) :=
  ⟨⟨_, _, rfl, rfl, rfl, rfl, by decide⟩, ⟨_, _, rfl, rfl, rfl, rfl, by decide⟩⟩

/-- C19, amended: on a vector with `length <= capacity` and no live NaN, the
live elements after `reverse()` followed by `sort()` are as many as after
`sort()` alone and have, index by index, the same value in the type the width
selects; for `long` and `char` elements (numbers of four bytes and of one) they
are the same elements, for `double`s they compare equal, +0.0 and -0.0 being
one value.  Both programs return with a width `init` accepts. -/
theorem sort_after_reverse_agrees (vector : Vector) (_hlen : vector.length ≤ vector.capacity)
    (hnan : noLiveNaN vector) :
    (∀ sorted resorted, sort vector = Outcome.returned sorted →
      run vector [Call.reverse, Call.sort] = Outcome.returned resorted →
      resorted.length = sorted.length ∧
      (∀ i, i < sorted.length →
        valueKey vector.sizeOfElement (resorted.elements i)
          = valueKey vector.sizeOfElement (sorted.elements i)) ∧
      (liveFitWidth vector → vector.sizeOfElement ≠ sizeof_double →
        ∀ i, i < sorted.length → resorted.elements i = sorted.elements i)) ∧
    (supportedWidth vector.sizeOfElement →
      ∃ sorted resorted, sort vector = Outcome.returned sorted ∧
        run vector [Call.reverse, Call.sort] = Outcome.returned resorted) := by
  by_cases hw : supportedWidth vector.sizeOfElement
  · obtain ⟨first, second, h1, h2, hl1, hl2, hp1, hp2, hkey⟩ :=
      sort_after_reverse_spec vector hw hnan
    refine ⟨?_, fun _ => ⟨first, second, h1, h2⟩⟩
    intro sorted resorted hs hr
    have e1 : first = sorted := Outcome.returned.inj (h1.symm.trans hs)
    have e2 : second = resorted := Outcome.returned.inj (h2.symm.trans hr)
    rw [← e1, ← e2]
    refine ⟨by omega, fun i hi => hkey i (by omega), ?_⟩
    intro hfit hnd i hi
    have hi' : i < vector.length := by omega
    have hk := hkey i hi'
    obtain ⟨j1, hj1, hj1eq⟩ := live_slot_of_perm vector first hp1 i (by omega)
    obtain ⟨j2, hj2, hj2eq⟩ := live_slot_of_perm vector second hp2 i (by omega)
    unfold valueKey at hk
    rcases hw with hlong | hdouble | hchar
    · simp only [if_pos hlong] at hk
      exact asLong_injective _ _ (hj2eq ▸ hfit.1 hlong j2 hj2) (hj1eq ▸ hfit.1 hlong j1 hj1) hk
    · exact absurd hdouble hnd
    · have hnl : ¬ vector.sizeOfElement = sizeof_long := by rw [hchar]; decide
      simp only [if_neg hnl, if_neg hnd] at hk
      exact asChar_injective _ _ (hj2eq ▸ hfit.2 hchar j2 hj2) (hj1eq ▸ hfit.2 hchar j1 hj1) hk
  · refine ⟨?_, fun h => absurd h hw⟩
    intro sorted resorted hs
    obtain ⟨message, hexit⟩ := sort_of_unsupported vector hw
    rw [hexit] at hs
    cases hs

/-- Witness of C19: the `long`s 7, 5 and 6. -/
theorem sort_after_reverse_agrees_witness :
    ∃ sorted resorted,
      sort { elements := fun j => if j = 0 then 7 else if j = 1 then 5 else 6
             capacity := 4, length := 3, sizeOfElement := 4 } = Outcome.returned sorted ∧
      run { elements := fun j => if j = 0 then 7 else if j = 1 then 5 else 6
            capacity := 4, length := 3, sizeOfElement := 4 }
          [Call.reverse, Call.sort] = Outcome.returned resorted ∧
      resorted.length = sorted.length ∧
      (∀ i, i < sorted.length →
        valueKey 4 (resorted.elements i) = valueKey 4 (sorted.elements i)) ∧
      ∀ i, i < sorted.length → resorted.elements i = sorted.elements i :=
  have h := sort_after_reverse_agrees
    { elements := fun j => if j = 0 then 7 else if j = 1 then 5 else 6
      capacity := 4, length := 3, sizeOfElement := 4 } (by decide)
    (by unfold noLiveNaN; decide)
  (h.2 (by decide)).elim fun sorted hrest => hrest.elim fun resorted hboth =>
    ⟨sorted, resorted, hboth.1, hboth.2, (h.1 sorted resorted hboth.1 hboth.2).1,
      (h.1 sorted resorted hboth.1 hboth.2).2.1,
      (h.1 sorted resorted hboth.1 hboth.2).2.2 (by unfold liveFitWidth; decide) (by decide)⟩

/-! ## The scenario of example.c -/

/-- The bit patterns of the `double`s 1.0, 3.0, 99.0 and 100.0. -/
theorem doubleOfNat_values :
    doubleOfNat 1 = 0x3FF0000000000000 ∧ doubleOfNat 3 = 0x4008000000000000 ∧
    doubleOfNat 99 = 0x4058C00000000000 ∧ doubleOfNat 100 = 0x4059000000000000 := by
  decide

/-- Entry `i` of the live elements is the element in slot `i`. -/
theorem live_getD (vector : Vector) (i : Nat) (h : i < vector.length) :
    (live vector).getD i 0 = vector.elements i := by
  rw [List.getD_eq_getElem _ _ (by rw [live_length]; exact h), live_getElem]

/-- Adjacent live elements are in order when the list of live elements is a
list whose adjacent entries are. -/
theorem pairs_of_live_eq (vector : Vector) (entries : List Elem) (sizeOfElement : Nat)
    (hlive : live vector = entries)
    (hentries : ∀ i, i < entries.length - 1 →
      valueLe sizeOfElement (entries.getD i 0) (entries.getD (i + 1) 0)) :
    ∀ i, i + 1 < vector.length →
      valueLe sizeOfElement (vector.elements i) (vector.elements (i + 1)) := by
  intro i hi
  have hlen : entries.length = vector.length := by rw [← hlive, live_length]
  have h := hentries i (by omega)
  rw [← hlive, live_getD vector i (by omega), live_getD vector (i + 1) hi] at h
  exact h

/-- The list 1.0, 3.0, 4.0, ..., 99.0 ascends. -/
theorem scenario_sorted_list_ascends :
    ∀ i, i < ((1 :: List.range' 3 97).map doubleOfNat).length - 1 →
      valueLe sizeof_double (((1 :: List.range' 3 97).map doubleOfNat).getD i 0)
        (((1 :: List.range' 3 97).map doubleOfNat).getD (i + 1) 0) := by
  decide!

set_option maxRecDepth 100000 in
/-- The live elements of the scenario after `sort()`. -/
theorem scenario_sorted_live :
    live (scenarioAfter 5).vector = (1 :: List.range' 3 97).map doubleOfNat := by
  decide!

set_option maxRecDepth 100000 in
/-- The reads of the scenario: slot 0 after the pushes, slot 1 after `erase(1)`,
slot 97 before and slot 0 after `reverse()`. -/
theorem scenario_reads :
    ((0 < (scenarioAfter 0).vector.length ∧
      (scenarioAfter 0).vector.elements 0 = doubleOfNat 1) ∧
     (1 < (scenarioAfter 1).vector.length ∧
      (scenarioAfter 1).vector.elements 1 = doubleOfNat 3)) ∧
    ((97 < (scenarioAfter 3).vector.length ∧
      (scenarioAfter 3).vector.elements 97 = doubleOfNat 99) ∧
     (0 < (scenarioAfter 4).vector.length ∧
      (scenarioAfter 4).vector.elements 0 = doubleOfNat 99)) := by
  decide!

set_option maxRecDepth 100000 in
/-- C15: the scenario from `init(10, sizeof(double))`.  After the pushes of 1.0
to 100.0: `length = 100`, `capacity >= 100` (it is 160), `get(0)` is 1.0.  After
`erase(1)`: `get(1)` is 3.0 and `length = 99`.  After `resize(200)` and `pop()`:
`length = 98`.  After `reverse()`: `get(0)` is what `get(97)` was, 99.0.  After
`sort()`: the live elements are 1.0, 3.0, 4.0, ..., 99.0, in ascending order.
After `clear()`: `length = 0` and `capacity = 200`.  Every call returns. -/
theorem example_scenario :
    init 10 sizeof_double = Except.ok scenarioStart ∧
    ((scenarioAfter 0).returns = true ∧ (scenarioAfter 0).vector.length = 100 ∧
      100 ≤ (scenarioAfter 0).vector.capacity ∧ (scenarioAfter 0).vector.capacity = 160 ∧
      get (scenarioAfter 0).vector 0 = Except.ok (doubleOfNat 1)) ∧
    ((scenarioAfter 1).returns = true ∧
      get (scenarioAfter 1).vector 1 = Except.ok (doubleOfNat 3) ∧
      (scenarioAfter 1).vector.length = 99) ∧
    ((scenarioAfter 3).returns = true ∧ (scenarioAfter 3).vector.length = 98) ∧
    ((scenarioAfter 4).returns = true ∧
      get (scenarioAfter 4).vector 0 = get (scenarioAfter 3).vector 97 ∧
      get (scenarioAfter 4).vector 0 = Except.ok (doubleOfNat 99)) ∧
    ((scenarioAfter 5).returns = true ∧
      live (scenarioAfter 5).vector = (1 :: List.range' 3 97).map doubleOfNat ∧
      ∀ i, i + 1 < (scenarioAfter 5).vector.length →
        valueLe sizeof_double ((scenarioAfter 5).vector.elements i)
          ((scenarioAfter 5).vector.elements (i + 1))) ∧
    ((scenarioAfter 6).returns = true ∧ (scenarioAfter 6).vector.length = 0 ∧
      (scenarioAfter 6).vector.capacity = 200) := by
  obtain ⟨⟨⟨l0, e0⟩, ⟨l1, e1⟩⟩, ⟨⟨l97, e97⟩, ⟨l0r, e0r⟩⟩⟩ := scenario_reads
  refine ⟨rfl, ⟨?_, ?_, ?_, ?_, ?_⟩, ⟨?_, ?_, ?_⟩, ⟨?_, ?_⟩, ⟨?_, ?_, ?_⟩, ⟨?_, ?_, ?_⟩,
    ⟨?_, ?_, ?_⟩⟩
  · decide!
  · decide!
  · decide!
  · decide!
  · rw [get_of_lt _ 0 l0, e0]
  · decide!
  · rw [get_of_lt _ 1 l1, e1]
  · decide!
  · decide!
  · decide!
  · decide!
  · rw [get_of_lt _ 0 l0r, get_of_lt _ 97 l97, e0r, e97]
  · rw [get_of_lt _ 0 l0r, e0r]
  · decide!
  · exact scenario_sorted_live
  · exact pairs_of_live_eq _ _ _ scenario_sorted_live scenario_sorted_list_ascends
  · decide!
  · decide!
  · decide!

end DynamicArray
